import Mathlib

/-!
# ckoanf: the merge-and-validate pipeline

A shallow embedding of the Go package `ckoanf` (files `config.go`, `opts.go`,
`source.go`, `sources.go`, `filetype.go`, `source/urfavecli/source.go`).

Conventions of the embedding.

* A Go function that returns `(T, error)` returns `Go (Except Error T)`; a Go
  method that mutates its receiver and returns `error` returns the new receiver
  together with `Option Error` (`none` is Go's `nil`).  `Go.panic` is a Go panic.
* `*koanf.Koanf` is a pointer to a mutable store.  The store is the external
  library `knadh/koanf`; its state is a type parameter `N` and the operations
  the package calls on it are the fields of `Koanf N C V`.  A nil pointer is
  `none : Option N`.
* An error value that exists before a call and can be compared with `==` (a
  package-level sentinel, the `myError` of a test) is `Error.sentinel` with its
  own identity; an error value allocated during a call is `==` to no value a
  caller holds.
-/

namespace Ckoanf

/-! ## Errors, contexts, panics -/

/-- Argument substituted for a `%d` or `%s` verb of a format string. -/
inductive FmtArg where
  | int (n : Nat)
  | str (s : String)
  deriving DecidableEq, Repr

/-- Go error values: `errors.New(text)`, `fmt.Errorf(format, args...)` without
`%w`, and `fmt.Errorf(format, args..., err)` whose format ends in `%w`, each
allocated by the call that returns it; and `sentinel id err`, the error `err`
held as a value of identity `id` that exists before the call (`var ErrX =
errors.New(...)`, a comparable error value), so that a caller can hold it and
compare with it. -/
inductive Error where
  | new (text : String)
  | errorf (format : String) (args : List FmtArg)
  | wrapf (format : String) (args : List FmtArg) (err : Error)
  | sentinel (id : Nat) (err : Error)
  deriving DecidableEq, Repr

/-- The method `Unwrap` of an error built by `fmt.Errorf` with `%w`. -/
def Error.Unwrap : Error → Option Error
  | .wrapf _ _ err => some err
  | .sentinel _ err => err.Unwrap
  | _ => none

/-- Go's `err == target` on error values: the same value, that is, two
sentinels of one identity. Two errors allocated separately are never `==`,
whatever their text. -/
def Error.same : Error → Error → Bool
  | .sentinel i _, .sentinel j _ => i == j
  | _, _ => false

/-- Go's `errors.Is(err, target)`: `target` is `==` to an error on the unwrap
chain of `err`. -/
def errorsIs : Error → Error → Bool
  | .wrapf _ _ err, target => errorsIs err target
  | .sentinel id err, target => Error.same (.sentinel id err) target || errorsIs err target
  | _, _ => false

/-- Outcome of a Go call: it returns a value or it panics. -/
inductive Go (α : Type) where
  | ret (a : α)
  | panic (v : Error)

/-- The panic value of a nil pointer dereference. -/
def nilDereference : Error :=
  .new "runtime error: invalid memory address or nil pointer dereference"

/-- Sentinel `context.Canceled`. -/
def Context.Canceled : Error := .sentinel 1 (.new "context canceled")

/-- Sentinel `context.DeadlineExceeded`. -/
def Context.DeadlineExceeded : Error := .sentinel 2 (.new "context deadline exceeded")

/-- A `context.Context`, observed at the instant of the call: `Err` is what
`ctx.Err()` returns (`none` while the context is live). -/
structure Context where
  Err : Option Error

/-- The context `context.Background()`: never cancelled. -/
def Context.Background : Context := { Err := none }

/-- The context `context.WithTimeout(parent, timeout)` at the instant it is
created: a done parent makes the child done with the parent's error, a
non-positive timeout makes it expired at once. Durations are nanoseconds. -/
def Context.WithTimeout (parent : Context) (timeout : Int) : Context :=
  match parent.Err with
  | some err => { Err := some err }
  | none => if timeout ≤ 0 then { Err := some Context.DeadlineExceeded } else { Err := none }

/-! ## source.go -/

/-- Go's `type SourceType string`. -/
abbrev SourceType := String

def SourceTypeDefault : SourceType := "default"
def SourceTypeLocalFile : SourceType := "file"
def SourceTypeEnv : SourceType := "env"
def SourceTypePFlag : SourceType := "pflag"
def SourceTypeStruct : SourceType := "struct"

/-- The method `SourceType.Valid`: `nil` exactly for the five declared kinds. -/
def SourceType.Valid (p : SourceType) : Option Error :=
  if p = SourceTypeDefault ∨ p = SourceTypeLocalFile ∨ p = SourceTypeEnv
      ∨ p = SourceTypePFlag ∨ p = SourceTypeStruct then none
  else some (.errorf "invalid provider type: %s" [.str p])

/-- The struct `Source`: a kind tag (Go field `Type`) and a load operation that
mutates the store it is handed and returns an error or `nil`. -/
structure Source (N : Type) where
  Typ : SourceType
  Load : Context → N → N × Option Error

/-! ## filetype.go -/

/-- Go's `type ConfigFileType string`. -/
abbrev ConfigFileType := String

def FileTypeYAML : ConfigFileType := "yaml"
def FileTypeTOML : ConfigFileType := "toml"
def FileTypeJSON : ConfigFileType := "json"

/-- The three `koanf.Parser` values the package hands to the store. -/
inductive Parser where
  | yaml
  | toml
  | json
  deriving DecidableEq, Repr

/-- The method `ConfigFileType.Valid`. -/
def ConfigFileType.Valid (c : ConfigFileType) : Option Error :=
  if c = FileTypeYAML ∨ c = FileTypeTOML ∨ c = FileTypeJSON then none
  else some (.errorf "invalid config file type: %s" [.str c])

/-- The method `ConfigFileType.Parser`: panics on any other file type. -/
def ConfigFileType.Parser (c : ConfigFileType) : Go Parser :=
  if c = FileTypeYAML then .ret .yaml
  else if c = FileTypeTOML then .ret .toml
  else if c = FileTypeJSON then .ret .json
  else .panic (.errorf "invalid config file type: %s" [.str c])

/-! ## The external store -/

/-- A `pflag.Flag`: its name, its current value, and whether the command line
changed it from its default. -/
structure Flag where
  Name : String
  Value : String
  Changed : Bool

/-- A `*pflag.FlagSet`: the declared flags. -/
structure FlagSet where
  flags : List Flag

/-- A `*cli.Command` of urfave/cli: its flag names with their values. -/
structure Command where
  flags : List (String × String)

/-- The struct `koanf.Conf`. -/
structure Conf where
  Delim : String
  StrictMerge : Bool

/-- The `koanf.Provider` values the package builds: `rawbytes.Provider(b)`,
`file.Provider(path)`, `env.Provider(pfx, delim, cb)`,
`posflag.Provider(flagset, delim, k)` and the urfavecli `newProvider(c, delim)`,
whose command pointer may be nil. -/
inductive Provider where
  | rawbytes (b : List UInt8)
  | file (path : String)
  | env (pfx : String) (delim : String) (cb : String → String)
  | posflag (flagset : FlagSet) (delim : String)
  | urfavecli (c : Option Command) (delimiter : String)

/-- The operations of `knadh/koanf` that the package calls, on a store whose
state has type `N`, for a model of type `C` and values of type `V`:
`koanf.NewWithConf`, `k.Delim()`, `k.Load(provider, parser)`,
`k.Unmarshal(path, model)` and `k.Set(key, value)`.  Each mutating operation
returns the state it leaves behind, also when it fails. -/
structure Koanf (N C V : Type) where
  NewWithConf : Conf → N
  Delim : N → String
  Load : N → Provider → Option Parser → N × Option Error
  Unmarshal : N → String → C → C × Option Error
  Set : N → String → V → N × Option Error

/-! ## config.go -/

/-- The interface `ConfigModel`. -/
class ConfigModel (C : Type) where
  Validate : C → Option Error

/-- The struct `Config[C]`. -/
structure Config (N C : Type) where
  K : Option N
  model : C
  sources : List (Source N)
  validationEnabled : Bool
  strictMerge : Bool
  loadTimeout : Int

/-- Go's `type Option[C] func(*Config[C]) error`: the manager it leaves behind
and the error it returns. -/
abbrev OptionFn (N C : Type) := Config N C → Go (Config N C × Option Error)

/-- Go's `type SourceFunc[C] func(*Config[C]) (Source, error)`. -/
abbrev SourceFunc (N C : Type) := Config N C → Go (Except Error (Source N))

/-- The constant `defaultDelimiter`. -/
def defaultDelimiter : String := "."

/-- The first loop of `New`: apply the options in order, stop at the first error. -/
def New.applyOptions {N C : Type} : Nat → List (OptionFn N C) → Config N C →
    Go (Except Error (Config N C))
  | _, [], mgr => .ret (.ok mgr)
  | i, opt :: opts, mgr =>
    match opt mgr with
    | .panic v => .panic v
    | .ret (_, some err) => .ret (.error (.wrapf "failed to apply option %d: %w" [.int i] err))
    | .ret (mgr', none) => New.applyOptions (i + 1) opts mgr'

/-- The second loop of `New`: the first source whose kind is invalid. -/
def New.checkSources {N : Type} : Nat → List (Source N) → Option Error
  | _, [] => none
  | i, src :: srcs =>
    match SourceType.Valid src.Typ with
    | some err => some (.wrapf "invalid source type for provider %d: %w" [.int i] err)
    | none => New.checkSources (i + 1) srcs

/-- The function `New`. -/
def New {N C V : Type} (api : Koanf N C V) (c : C) (opts : List (OptionFn N C)) :
    Go (Except Error (Config N C)) :=
  let mgr : Config N C :=
    { K := none
      validationEnabled := true
      strictMerge := false
      model := c
      sources := []
      loadTimeout := 10 * 1000000000 }
  match New.applyOptions 0 opts mgr with
  | .panic v => .panic v
  | .ret (.error err) => .ret (.error err)
  | .ret (.ok mgr) =>
    match New.checkSources 0 mgr.sources with
    | some err => .ret (.error err)
    | none =>
      .ret (.ok { mgr with
        K := some (api.NewWithConf { Delim := defaultDelimiter, StrictMerge := mgr.strictMerge }) })

/-- The manager `New` starts from, before any option is applied. -/
def New.init {N C : Type} (c : C) : Config N C :=
  { K := none
    validationEnabled := true
    strictMerge := false
    model := c
    sources := []
    loadTimeout := 10 * 1000000000 }

/-- The method `Config.Validate`. -/
def Config.Validate {N C : Type} [ConfigModel C] (mgr : Config N C) : Option Error :=
  match ConfigModel.Validate mgr.model with
  | some err => some (.wrapf "failed to validate config model: %w" [] err)
  | none => none

/-- The source loop of `Config.Load`: each source in order on the store, stop
at the first failure, keeping what the store holds by then. -/
def Config.Load.loadSources {N : Type} (ctx : Context) : Nat → List (Source N) → N →
    N × Option Error
  | _, [], k => (k, none)
  | i, source :: rest, k =>
    match source.Load ctx k with
    | (k', some err) =>
      (k', some (.wrapf "failed to load config from provider %d (type=%s): %w"
        [.int i, .str source.Typ] err))
    | (k', none) => Config.Load.loadSources ctx (i + 1) rest k'

/-- The variable `baseContext` of `Config.Load`: the one context given, else
`context.Background()`. -/
def Config.Load.baseContext (ctxs : List Context) : Context :=
  match ctxs with
  | [c] => c
  | _ => Context.Background

/-- The method `Config.Load`. Every manager that `New` or `Init` returns has a
store. On a manager without one (`K` nil) the Go code hands the nil store to
the first source, or to `Unmarshal` when there is none; every source of this
package and `Unmarshal` dereference it, which is the panic given here. -/
def Config.Load {N C V : Type} [ConfigModel C] (api : Koanf N C V) (mgr : Config N C)
    (ctxs : List Context) : Go (Config N C × Option Error) :=
  if ctxs.length > 1 then .ret (mgr, some (.errorf "too many contexts given" []))
  else
    let ctx := Context.WithTimeout (Config.Load.baseContext ctxs) mgr.loadTimeout
    match mgr.K with
    | none => .panic nilDereference
    | some k =>
      match Config.Load.loadSources ctx 0 mgr.sources k with
      | (k', some err) => .ret ({ mgr with K := some k' }, some err)
      | (k', none) =>
        match api.Unmarshal k' "" mgr.model with
        | (m', some err) =>
          .ret ({ mgr with K := some k', model := m' },
            some (.wrapf "failed to unmarshal config: %w" [] err))
        | (m', none) =>
          let mgr' : Config N C := { mgr with K := some k', model := m' }
          if mgr'.validationEnabled then
            match mgr'.Validate with
            | some err => .ret (mgr', some err)
            | none => .ret (mgr', none)
          else .ret (mgr', none)

/-- The function `Init`: `New`, then `Load` without a context. -/
def Init {N C V : Type} [ConfigModel C] (api : Koanf N C V) (c : C)
    (opts : List (OptionFn N C)) : Go (Except Error (Config N C)) :=
  match New api c opts with
  | .panic v => .panic v
  | .ret (.error err) =>
    .ret (.error (.wrapf "failed to create new config manager: %w" [] err))
  | .ret (.ok cfg) =>
    match cfg.Load api [] with
    | .panic v => .panic v
    | .ret (_, some err) => .ret (.error (.wrapf "failed to load config: %w" [] err))
    | .ret (cfg', none) => .ret (.ok cfg')

/-- The method `Config.Model`. -/
def Config.Model {N C : Type} (mgr : Config N C) : C := mgr.model

/-- The method `Config.Set`. -/
def Config.Set {N C V : Type} (api : Koanf N C V) (mgr : Config N C) (key : String)
    (value : V) : Go (Config N C × Option Error) :=
  match mgr.K with
  | none => .panic nilDereference
  | some k =>
    match api.Set k key value with
    | (k', some err) =>
      .ret ({ mgr with K := some k' }, some (.wrapf "ckoanf failed to set value: %w" [] err))
    | (k', none) =>
      match api.Unmarshal k' "" mgr.model with
      | (m', some err) =>
        .ret ({ mgr with K := some k', model := m' },
          some (.wrapf "ckoanf failed to unmarshal config: %w" [] err))
      | (m', none) => .ret ({ mgr with K := some k', model := m' }, none)

/-! ## opts.go -/

/-- The option `WithValidation`. -/
def WithValidation {N C : Type} (v : Bool) : OptionFn N C :=
  fun mgr => .ret ({ mgr with validationEnabled := v }, none)

/-- The loop of `WithSource`: run each constructor on the manager and append
the source it returns; stop at the first construction error. -/
def WithSource.loop {N C : Type} : Nat → List (SourceFunc N C) → Config N C →
    Go (Config N C × Option Error)
  | _, [], mgr => .ret (mgr, none)
  | i, src :: srcs, mgr =>
    match src mgr with
    | .panic v => .panic v
    | .ret (.error err) => .ret (mgr, some (.wrapf "failed to create source %d: %w" [.int i] err))
    | .ret (.ok s) => WithSource.loop (i + 1) srcs { mgr with sources := mgr.sources ++ [s] }

/-- The option `WithSource`. -/
def WithSource {N C : Type} (srcs : List (SourceFunc N C)) : OptionFn N C :=
  fun mgr => WithSource.loop 0 srcs mgr

/-- The unexported option `withRawSource` of `config_test.go`: append a source
as it is. -/
def withRawSource {N C : Type} (src : Source N) : OptionFn N C :=
  fun mgr => .ret ({ mgr with sources := mgr.sources ++ [src] }, none)

/-! ## sources.go -/

/-- The closure `isAllowedError` of `OptionalSource`. -/
def OptionalSource.isAllowedError (allowedErrors : List Error) (err : Error) : Bool :=
  if allowedErrors.length = 0 then true
  else allowedErrors.any (fun allowed => errorsIs err allowed)

/-- The function `OptionalSource`; a nil constructor is `none`. -/
def OptionalSource {N C : Type} (src : Option (SourceFunc N C)) (allowedErrors : List Error) :
    SourceFunc N C :=
  fun mgr =>
    match src with
    | none => .ret (.error (.errorf "source cannot be nil" []))
    | some src =>
      match src mgr with
      | .panic v => .panic v
      | .ret (.error err) => .ret (.error err)
      | .ret (.ok innerSrc) =>
        .ret (.ok
          { Typ := innerSrc.Typ
            Load := fun ctx k =>
              match innerSrc.Load ctx k with
              | (k', some err) =>
                if !OptionalSource.isAllowedError allowedErrors err then (k', some err)
                else (k', none)
              | (k', none) => (k', none) })

/-- The function `EmbeddedDefaults`. -/
def EmbeddedDefaults {N C V : Type} (api : Koanf N C V) (b : List UInt8)
    (filetype : ConfigFileType) : SourceFunc N C :=
  fun _ =>
    match ConfigFileType.Valid filetype with
    | some err => .ret (.error err)
    | none =>
      match ConfigFileType.Parser filetype with
      | .panic v => .panic v
      | .ret parser =>
        .ret (.ok
          { Typ := SourceTypeDefault
            Load := fun _ k =>
              match api.Load k (.rawbytes b) (some parser) with
              | (k', some err) =>
                (k', some (.wrapf "failed to load config from embedded defaults: %w" [] err))
              | (k', none) => (k', none) })

/-- The function `PFlags`; a nil flag set is `none`. -/
def PFlags {N C V : Type} (api : Koanf N C V) (flagset : Option FlagSet) : SourceFunc N C :=
  fun _ =>
    match flagset with
    | none => .ret (.error (.errorf "flagset cannot be nil" []))
    | some flagset =>
      .ret (.ok
        { Typ := SourceTypePFlag
          Load := fun _ k =>
            match api.Load k (.posflag flagset defaultDelimiter) none with
            | (k', some err) =>
              (k', some (.wrapf "failed to load config from posix flags: %w" [] err))
            | (k', none) => (k', none) })

/-! ## source/urfavecli/source.go -/

/-- The function `urfavecli.Flags`; a nil command is `none`. The command is
handed to the provider as it is, whatever it is. -/
def urfavecli.Flags {N C V : Type} (api : Koanf N C V) (c : Option Command) : SourceFunc N C :=
  fun _ =>
    .ret (.ok
      { Typ := SourceTypePFlag
        Load := fun _ k =>
          match api.Load k (.urfavecli c (api.Delim k)) none with
          | (k', some err) =>
            (k', some (.wrapf "failed to load config from urfave/cli/v3 flags: %w" [] err))
          | (k', none) => (k', none) })

/-! ## Go's `strings` functions used by the package

Strings are compared character by character. The patterns the package passes
(`.toml`, `.yaml`, `.yml`, `.json`, `__`) are ASCII, for which matching on
characters and matching on the bytes of the UTF-8 encoding agree. -/

/-- Go's `strings.HasSuffix(s, suffix)`. -/
def stringsHasSuffix (s suffix : String) : Bool := suffix.data.isSuffixOf s.data

/-- Go's `strings.HasPrefix(s, pfx)`. -/
def stringsHasPrefix (s pfx : String) : Bool := pfx.data.isPrefixOf s.data

/-- Go's `strings.TrimPrefix(s, pfx)`: `s` without the leading `pfx`, or `s`
itself when it does not start with `pfx`. -/
def stringsTrimPrefix (s pfx : String) : String :=
  if stringsHasPrefix s pfx then String.mk (s.data.drop pfx.data.length) else s

/-- Go's `strings.ToLower(s)`: every character mapped by `unicode.ToLower`,
whose table of the Unicode letters is the parameter `unicodeToLower`. -/
def stringsToLower (unicodeToLower : Char → Char) (s : String) : String :=
  String.mk (s.data.map unicodeToLower)

/-- The scan of `strings.ReplaceAll` for a non-empty `old`, left to right over
non-overlapping matches; `skip` counts the characters of a match still to be
consumed. -/
def stringsReplaceAll.scan (old new : List Char) : Nat → List Char → List Char
  | _, [] => []
  | skip + 1, _ :: rest => stringsReplaceAll.scan old new skip rest
  | 0, c :: rest =>
    if old.isPrefixOf (c :: rest) then new ++ stringsReplaceAll.scan old new (old.length - 1) rest
    else c :: stringsReplaceAll.scan old new 0 rest

/-- Go's `strings.ReplaceAll(s, old, new)`; an empty `old` matches before every
character and at the end. -/
def stringsReplaceAll (s old new : String) : String :=
  if old.data = [] then String.mk (new.data ++ s.data.flatMap (fun c => c :: new.data))
  else String.mk (stringsReplaceAll.scan old.data new.data 0 s.data)

/-! ## filetype.go and sources.go, continued -/

/-- The function `inferConfigFiletype`; `defaultFiletype` is the variadic
argument. -/
def inferConfigFiletype (path : String) (defaultFiletype : List ConfigFileType) :
    ConfigFileType :=
  if stringsHasSuffix path ".toml" then FileTypeTOML
  else if stringsHasSuffix path ".yaml" || stringsHasSuffix path ".yml" then FileTypeYAML
  else if stringsHasSuffix path ".json" then FileTypeJSON
  else
    match defaultFiletype with
    | first :: _ => first
    | [] => FileTypeTOML

/-- The function `LocalFile`. -/
def LocalFile {N C V : Type} (api : Koanf N C V) (filepath : String) : SourceFunc N C :=
  let filetype := inferConfigFiletype filepath []
  fun _ =>
    match ConfigFileType.Parser filetype with
    | .panic v => .panic v
    | .ret parser =>
      .ret (.ok
        { Typ := SourceTypeLocalFile
          Load := fun _ k =>
            match api.Load k (.file filepath) (some parser) with
            | (k', some err) =>
              (k', some (.wrapf "failed to load config from local file: %w" [] err))
            | (k', none) => (k', none) })

/-- The callback `Env` hands to `env.Provider`: the key an environment variable
name is mapped to. -/
def Env.callback (unicodeToLower : Char → Char) (pfx : String) (s : String) : String :=
  let ret := stringsTrimPrefix s pfx
  stringsReplaceAll (stringsToLower unicodeToLower ret) "__" defaultDelimiter

/-- The function `Env`. -/
def Env {N C V : Type} (api : Koanf N C V) (unicodeToLower : Char → Char) (pfx : String) :
    SourceFunc N C :=
  fun _ =>
    .ret (.ok
      { Typ := SourceTypeEnv
        Load := fun _ k =>
          match api.Load k (.env pfx defaultDelimiter (Env.callback unicodeToLower pfx))
              none with
          | (k', some err) =>
            (k', some (.wrapf "failed to load config from env vars: %w" [] err))
          | (k', none) => (k', none) })

/-! ## The key of an environment variable, as the specification words it -/

/-- The pieces of a name between its double underscores, found from the left:
in `A___B` the first two underscores separate, the third starts the next piece.
After a separator is found, `skip` counts its characters still to be passed. -/
def Env.specPieces.go : Nat → List Char → List (List Char)
  | _, [] => [[]]
  | skip + 1, _ :: rest => Env.specPieces.go skip rest
  | 0, c :: rest =>
    if c = '_' ∧ rest.head? = some '_' then [] :: Env.specPieces.go 1 rest
    else
      match Env.specPieces.go 0 rest with
      | seg :: segs => (c :: seg) :: segs
      | [] => [[c]]

/-- The pieces of a name between its double underscores. -/
def Env.specPieces (name : List Char) : List (List Char) := Env.specPieces.go 0 name

/-- Pieces put together with a separator between them. -/
def Env.specJoin (sep : List Char) : List (List Char) → List Char
  | [] => []
  | [seg] => seg
  | seg :: segs => seg ++ sep ++ Env.specJoin sep segs

/-- The key of the variable name `n` under the prefix `p` as the specification
words it: the prefix stripped, what is left lower-cased, and every double
underscore replaced by the delimiter `.`. -/
def Env.specKey (unicodeToLower : Char → Char) (p n : String) : String :=
  let stripped := n.data.drop p.data.length
  let lowered := stripped.map unicodeToLower
  String.mk (Env.specJoin ['.'] (Env.specPieces lowered))

/-! ## The store of koanf: nested maps

The store of `knadh/koanf` is a `map[string]interface{}` whose values are
scalars or maps again; a key such as `a.b` is the path `a`, `b` into it. What
follows is that store with the merge the package runs it with (`StrictMerge`
is false in every manager the package builds). -/

/-- A value under a key of a nested map: no value (the key is missing), a
scalar, or a map from keys to values. -/
inductive Node (V : Type) where
  | absent
  | scalar (v : V)
  | map (children : String → Node V)

/-- The value under `key` in a map; nothing under a key of a scalar. -/
def Node.child {V : Type} : Node V → String → Node V
  | .map children, key => children key
  | _, _ => .absent

/-- The value at a key path (koanf's `Get` on the path split at the delimiter). -/
def Node.get {V : Type} : Node V → List String → Node V
  | n, [] => n
  | n, key :: rest => (n.child key).get rest

/-- Whether a key is missing. -/
def Node.isAbsent {V : Type} : Node V → Bool
  | .absent => true
  | _ => false

/-- The merge of koanf's `maps.Merge(a, b)`, for the value `val` of a key of `a`
and the value `bVal` of that key in `b`: a key missing in `a` leaves `b`'s
value, a scalar replaces whatever `b` has, a map is merged into a map of `b`
key by key and replaces anything else. -/
def Node.mergeInto {V : Type} : Node V → Node V → Node V
  | .absent, bVal => bVal
  | .scalar v, _ => .scalar v
  | .map sub, .map bsub => .map (fun key => Node.mergeInto (sub key) (bsub key))
  | .map sub, _ => .map sub

/-- The store `koanf.NewWithConf` returns: a map without keys. -/
def Node.empty {V : Type} : Node V := .map (fun _ => .absent)

/-- The nested map that holds `n` at a key path and nothing else. -/
def Node.ofPath {V : Type} : List String → Node V → Node V
  | [], n => n
  | key :: rest, n => .map (fun x => if x = key then Node.ofPath rest n else .absent)

/-- The nested map of a list of key paths with scalar values (koanf's
`maps.Unflatten`). -/
def Node.ofEntries {V : Type} (es : List (List String × V)) : Node V :=
  es.foldl (fun acc e => Node.mergeInto (Node.ofPath e.1 (.scalar e.2)) acc) Node.empty

/-- Whether the map `c` leaves the key path `K` alone when merged: it has no
value at `K` and no scalar at a path that `K` extends. -/
def Node.silentOn {V : Type} : Node V → List String → Bool
  | .absent, _ => true
  | .scalar _, _ => false
  | .map _, [] => false
  | .map children, key :: rest => Node.silentOn (children key) rest

/-- A string cut at every occurrence of a separator character. -/
def splitOnChar (sep : Char) : List Char → List (List Char)
  | [] => [[]]
  | c :: rest =>
    if c = sep then [] :: splitOnChar sep rest
    else
      match splitOnChar sep rest with
      | seg :: segs => (c :: seg) :: segs
      | [] => [[c]]

/-- The key path of a delimited key, for the delimiter `.`. -/
def keyPath (key : String) : List String := (splitOnChar '.' key.data).map String.mk

/-- A source of kind `typ` that merges the fixed nested map `m` into the store
and never fails. -/
def mapSource {V : Type} (typ : SourceType) (m : Node V) : Source (Node V) :=
  { Typ := typ, Load := fun _ k => (Node.mergeInto m k, none) }

/-- A source that observes its context: its load returns the context's error
when the context is done, and loads nothing. -/
def observingSource {N : Type} (typ : SourceType) : Source N :=
  { Typ := typ, Load := fun ctx k => (k, ctx.Err) }

/-- The store as a `Koanf`, given how a provider is read and merged (`read`)
and how the store is decoded into the model (`decode`): `Set` merges the value
at the key's path (koanf unflattens the one key and merges it). -/
def nodeKoanf {C V : Type}
    (read : Node V → Provider → Option Parser → Node V × Option Error)
    (decode : Node V → C → C × Option Error) : Koanf (Node V) C V where
  NewWithConf := fun _ => Node.empty
  Delim := fun _ => defaultDelimiter
  Load := read
  Unmarshal := fun k _ m => decode k m
  Set := fun k key value => (Node.mergeInto (Node.ofPath (keyPath key) (.scalar value)) k, none)

/-! ### Unmarshal, field by field -/

/-- A model given by the values of its fields: each field is named by the key
path it is bound to and holds a value or its zero value (`none`). -/
abbrev Record (W : Type) := List String → Option W

/-- The binding of a field to a key path, with the conversion of a store value
to the field's type (`none` when the value does not fit the type). -/
structure FieldBinding (V W : Type) where
  path : List String
  convert : V → Option W

/-- Whether a scalar sits at a path that `path` properly extends, so that no
map can be entered there. -/
def Node.scalarAbove {V : Type} : Node V → List String → Bool
  | _, [] => false
  | n, key :: rest =>
    match n.child key with
    | .scalar _ => !rest.isEmpty
    | c => Node.scalarAbove c rest

/-- The error of a field whose value in the store does not fit it. -/
def decodeMismatch (path : List String) : Error :=
  .errorf "'%s' expected a value of the field's type" [.str (".".intercalate path)]

/-- Modelled from the spec: one field of the `Unmarshal` of the external store
("structural field-by-field decode honoring delimiter-based nesting"). The
field `f` takes the converted value the store has at its path and stays as it
is when the store has none; a value that does not fit (a map, a scalar that
does not convert, a scalar where a map is needed on the way) is an error, "type
mismatch during unmarshal", and leaves the field as it is. The first error is
kept. -/
def decodeField {V W : Type} (k : Node V) (acc : Record W × Option Error)
    (f : FieldBinding V W) : Record W × Option Error :=
  match k.get f.path with
  | .absent =>
    if k.scalarAbove f.path then (acc.1, acc.2.orElse (fun _ => some (decodeMismatch f.path)))
    else acc
  | .scalar v =>
    match f.convert v with
    | some w => (fun p => if p = f.path then some w else acc.1 p, acc.2)
    | none => (acc.1, acc.2.orElse (fun _ => some (decodeMismatch f.path)))
  | .map _ => (acc.1, acc.2.orElse (fun _ => some (decodeMismatch f.path)))

/-- The value the field path `p` holds after the decoding of the field `f`, when
it held `a` before. -/
def decodeField.value {V W : Type} (k : Node V) (f : FieldBinding V W) (p : List String)
    (a : Option W) : Option W :=
  match k.get f.path with
  | .scalar v =>
    match f.convert v with
    | some w => if p = f.path then some w else a
    | none => a
  | _ => a

/-- The error kept after the decoding of the field `f`, when `e` was kept before. -/
def decodeField.error {V W : Type} (k : Node V) (f : FieldBinding V W) (e : Option Error) :
    Option Error :=
  match k.get f.path with
  | .absent =>
    if k.scalarAbove f.path then e.orElse (fun _ => some (decodeMismatch f.path)) else e
  | .scalar v =>
    match f.convert v with
    | some _ => e
    | none => e.orElse (fun _ => some (decodeMismatch f.path))
  | .map _ => e.orElse (fun _ => some (decodeMismatch f.path))

/-- Modelled from the spec: the `Unmarshal` of the external store, "structural
field-by-field decode honoring delimiter-based nesting" into a model that is
"repeatedly overwritten (via unmarshal) on every Load/Set call, never
reconstructed": the fields are decoded one by one from the store into the model
as it is. -/
def decodeFields {V W : Type} (fields : List (FieldBinding V W)) (k : Node V) (m : Record W) :
    Record W × Option Error :=
  fields.foldl (decodeField k) (m, none)

/-! ### Steps on a value, for the proofs about repeated merges -/

/-- The shape of a value: missing, a scalar, or a map. -/
inductive Node.Kind (V : Type) where
  | absent
  | scalar (v : V)
  | map

/-- The shape of a value. -/
def Node.kind {V : Type} : Node V → Node.Kind V
  | .absent => .absent
  | .scalar v => .scalar v
  | .map _ => .map

/-- A step on the value of a key: merge a value into it, or remove it. -/
inductive Node.Step (V : Type) where
  | merge (c : Node V)
  | reset

/-- The value after a step. -/
def Node.Step.apply {V : Type} : Node.Step V → Node V → Node V
  | .merge c, x => Node.mergeInto c x
  | .reset, _ => .absent

/-- What a step on a value does to the value under `key` in it. -/
def Node.Step.below {V : Type} (key : String) : Node.Step V → Node.Step V
  | .merge .absent => .merge .absent
  | .merge (.scalar _) => .reset
  | .merge (.map children) => .merge (children key)
  | .reset => .reset

/-- The value after a list of steps, in order. -/
def Node.Step.run {V : Type} (steps : List (Node.Step V)) (x : Node V) : Node V :=
  steps.foldl (fun acc step => step.apply acc) x

/-! ## A store and models for running the definitions -/

/-- The struct `TestModel` of `config_test.go`, with `Nested.Foo` as the field
`Foo` and without `NotSetField`. -/
structure TestModel where
  Key : String
  ABC : String
  Foo : String
  deriving DecidableEq, Repr

/-- The method `TestModel.Validate` of `config_test.go`; `len` counts bytes. -/
def TestModel.Validate (m : TestModel) : Option Error :=
  if m.Key = "" then some (.new "Key is required")
  else if m.ABC ≠ "" ∧ m.ABC.utf8ByteSize ≠ 3 then
    some (.new "ABC must be length 3 if present")
  else none

instance : ConfigModel TestModel := ⟨TestModel.Validate⟩

/-- The struct `Empty` of `config_test.go`, whose `Validate` returns nil. -/
structure Empty where
  deriving DecidableEq, Repr

instance : ConfigModel Empty := ⟨fun _ => none⟩

/-- A toy document format: the bytes are read two at a time as a one-letter key
(`k` is `key`, `a` is `abc`, `f` is `nested.foo`, `n` is `nested`) followed by a
one-letter value; a trailing single byte is a parse error. -/
def toyParse : List UInt8 → Option (List (List String × String))
  | [] => some []
  | [_] => none
  | key :: value :: rest =>
    match toyParse rest with
    | none => none
    | some m =>
      let name :=
        if key = 107 then ["key"] else if key = 97 then ["abc"]
        else if key = 102 then ["nested", "foo"] else if key = 110 then ["nested"]
        else [String.singleton (Char.ofNat key.toNat)]
      some ((name, String.singleton (Char.ofNat value.toNat)) :: m)

/-- What `posflag.Provider(flagset, delim, k)` reads: every flag, except a flag
left at its default whose key the store already has. -/
def posflagRead (flagset : FlagSet) (k : Node String) : List (List String × String) :=
  (flagset.flags.filter
    (fun f => f.Changed || (k.get (keyPath f.Name)).isAbsent)).map
    (fun f => (keyPath f.Name, f.Value))

/-- Reading a provider and merging what it reads into the store. Documents are
in the toy format, a file is never found, the environment is empty; reading a
nil command, which panics in Go, is given as an error. -/
def toyRead (k : Node String) (provider : Provider) (_ : Option Parser) :
    Node String × Option Error :=
  match provider with
  | .rawbytes b =>
    match toyParse b with
    | some es => (Node.mergeInto (Node.ofEntries es) k, none)
    | none => (k, some (.new "parse error"))
  | .file _ => (k, some (.new "no such file or directory"))
  | .env _ _ _ => (k, none)
  | .posflag flagset _ => (Node.mergeInto (Node.ofEntries (posflagRead flagset k)) k, none)
  | .urfavecli (some c) _ =>
    (Node.mergeInto (Node.ofEntries (c.flags.map (fun f => (keyPath f.1, f.2)))) k, none)
  | .urfavecli none _ => (k, some nilDereference)

/-- The store with the toy providers, for a model decoded by `decode`. -/
def toyKoanf {C : Type} (decode : Node String → C → C × Option Error) :
    Koanf (Node String) C String :=
  nodeKoanf toyRead decode

/-- Decoding one string field: a scalar is taken, a missing key leaves the
field, a map does not fit. -/
def decodeString (n : Node String) (old : String) (field : String) : String × Option Error :=
  match n with
  | .absent => (old, none)
  | .scalar v => (v, none)
  | .map _ => (old, some (.errorf "'%s' expected type 'string', got a map" [.str field]))

/-- Decoding the store into a `TestModel`: the fields are bound to the keys
`key`, `abc` and `nested.foo`; a scalar under `nested` does not fit. -/
def TestModel.decode (k : Node String) (m : TestModel) : TestModel × Option Error :=
  let key := decodeString (k.get ["key"]) m.Key "key"
  let abc := decodeString (k.get ["abc"]) m.ABC "abc"
  let foo : String × Option Error :=
    match k.get ["nested"] with
    | .absent => (m.Foo, none)
    | .scalar _ => (m.Foo, some (.errorf "'%s' expected a map, got 'string'" [.str "nested"]))
    | .map children => decodeString (children "foo") m.Foo "nested.foo"
  ({ Key := key.1, ABC := abc.1, Foo := foo.1 },
    (key.2.orElse (fun _ => abc.2)).orElse (fun _ => foo.2))

/-- Decoding the store into an `Empty`: nothing to copy. -/
def Empty.decode (_ : Node String) (m : Empty) : Empty × Option Error := (m, none)

/-- The maps of the example: S1 = {a:1, b:2} of kind default, S2 = {b:3} of
kind env. -/
def precedenceMaps : List (SourceType × Node String) :=
  [(SourceTypeDefault, Node.ofEntries [(["a"], "1"), (["b"], "2")]),
    (SourceTypeEnv, Node.ofEntries [(["b"], "3")])]

/-- A manager with a fresh store whose sources merge `precedenceMaps`. -/
def precedenceManager : Config (Node String) Empty :=
  { K := some Node.empty
    model := Empty.mk
    sources := precedenceMaps.map (fun p => mapSource p.1 p.2)
    validationEnabled := true
    strictMerge := false
    loadTimeout := 10 * 1000000000 }

/-- Two maps where the later one puts a scalar where the earlier one has a
map: S1 = {a: {b: 1}}, S2 = {a: 2}. -/
def overridingMaps : List (SourceType × Node String) :=
  [(SourceTypeDefault, Node.ofEntries [(["a", "b"], "1")]),
    (SourceTypeEnv, Node.ofEntries [(["a"], "2")])]

/-- A manager with a fresh store whose sources merge `overridingMaps`. -/
def overridingManager : Config (Node String) Empty :=
  { K := some Node.empty
    model := Empty.mk
    sources := overridingMaps.map (fun p => mapSource p.1 p.2)
    validationEnabled := true
    strictMerge := false
    loadTimeout := 10 * 1000000000 }

/-- The document of the test "Load and Model with invalid validation" in the
toy format: key = "v", abc = "x" (not of length 3). -/
def invalidDocument : List UInt8 := [107, 118, 97, 120]

/-- The document of the test "Load and Model" in the toy format: key = "v". -/
def validDocument : List UInt8 := [107, 118]

/-- The source `EmbeddedDefaults(doc, FileTypeTOML)` builds on the toy store. -/
def defaultsSource (doc : List UInt8) : Source (Node String) :=
  { Typ := SourceTypeDefault
    Load := fun _ k =>
      match (toyKoanf TestModel.decode).Load k (.rawbytes doc) (some .toml) with
      | (k', some err) =>
        (k', some (.wrapf "failed to load config from embedded defaults: %w" [] err))
      | (k', none) => (k', none) }

/-- The manager `New` returns for an empty `TestModel` and the option
`WithSource(EmbeddedDefaults(doc, FileTypeTOML))`, validation as given. -/
def defaultsManager (doc : List UInt8) (validation : Bool) : Config (Node String) TestModel :=
  { K := some Node.empty
    model := { Key := "", ABC := "", Foo := "" }
    sources := [defaultsSource doc]
    validationEnabled := validation
    strictMerge := false
    loadTimeout := 10 * 1000000000 }

/-- The manager of `TestSet` after `Init`: the store and the model hold
key = "v". -/
def loadedManager : Config (Node String) TestModel :=
  { defaultsManager validDocument true with
    K := some (Node.mergeInto (Node.ofEntries [(["key"], "v")]) Node.empty)
    model := { Key := "v", ABC := "", Foo := "" } }

/-- A context whose deadline has passed. -/
def expiredContext : Context := { Err := some Context.DeadlineExceeded }

/-- A manager with a fresh store and two sources: {a:1} of kind default, then a
source of kind env that observes its context. -/
def observingManager : Config (Node String) Empty :=
  { K := some Node.empty
    model := Empty.mk
    sources := [mapSource SourceTypeDefault (Node.ofEntries [(["a"], "1")]),
      observingSource SourceTypeEnv]
    validationEnabled := true
    strictMerge := false
    loadTimeout := 10 * 1000000000 }

/-- The error `myError` of `TestOptionalSource`. -/
def myError : Error := .sentinel 10 (.new "some error")

/-- The other error of `TestOptionalSource`, `errors.New("some other error")`. -/
def someOtherError : Error := .sentinel 11 (.new "some other error")

/-- The constructor `myErrorSource` of `TestOptionalSource`: a source of kind
default whose load always fails with `myError`. -/
def myErrorSource : SourceFunc (Node String) Empty :=
  fun _ => .ret (.ok { Typ := SourceTypeDefault, Load := fun _ k => (k, some myError) })

/-- The source `myInvalidSource` of the test "Source with invalid type". -/
def myInvalidSource : Source (Node String) :=
  { Typ := "invalid", Load := fun _ k => (k, none) }

/-- The option of the test "Option errors": it fails with `errors.New("error")`. -/
def failingOption : OptionFn (Node String) Empty :=
  fun mgr => .ret (mgr, some (.new "error"))

/-- A source as `EmbeddedDefaults([]byte("%"), FileTypeTOML)` builds it on the
toy store (test "Provider errors"): one byte is not a document. -/
def brokenDefaults : Source (Node String) :=
  { Typ := SourceTypeDefault
    Load := fun _ k =>
      match (toyKoanf Empty.decode).Load k (.rawbytes [37]) (some .toml) with
      | (k', some err) =>
        (k', some (.wrapf "failed to load config from embedded defaults: %w" [] err))
      | (k', none) => (k', none) }

/-- A manager with a fresh store and three sources: {a:1} of kind env, the
broken defaults, {b:2} of kind struct. -/
def brokenManager : Config (Node String) Empty :=
  { K := some Node.empty
    model := Empty.mk
    sources :=
      [mapSource SourceTypeEnv (Node.ofEntries [(["a"], "1")]), brokenDefaults,
        mapSource SourceTypeStruct (Node.ofEntries [(["b"], "2")])]
    validationEnabled := true
    strictMerge := false
    loadTimeout := 10 * 1000000000 }

/-- The fields of a model like `TestModel`, as bindings: `key`, `abc` and
`nested.foo`, each taking the store's string as it is. -/
def testFields : List (FieldBinding String String) :=
  [{ path := ["key"], convert := some }, { path := ["abc"], convert := some },
    { path := ["nested", "foo"], convert := some }]

/-- The validation of `TestModel` on a record: `key` is required. -/
def recordModel : ConfigModel (Record String) :=
  ⟨fun m => if m ["key"] = none ∨ m ["key"] = some "" then some (.new "Key is required")
    else none⟩

/-- A manager with a fresh store, an empty record and the two sources
{key: v, nested: {foo: x}} and {nested: {foo: y}}. -/
def recordManager : Config (Node String) (Record String) :=
  { K := some Node.empty
    model := fun _ => none
    sources :=
      [mapSource SourceTypeDefault (Node.ofEntries [(["key"], "v"), (["nested", "foo"], "x")]),
        mapSource SourceTypeEnv (Node.ofEntries [(["nested", "foo"], "y")])]
    validationEnabled := true
    strictMerge := false
    loadTimeout := 10 * 1000000000 }

/-- The maps the sources of `recordManager` merge. -/
def recordMaps : List (SourceType × Node String) :=
  [(SourceTypeDefault, Node.ofEntries [(["key"], "v"), (["nested", "foo"], "x")]),
    (SourceTypeEnv, Node.ofEntries [(["nested", "foo"], "y")])]

/-- The store of `recordManager` after a Load: {key: v, nested: {foo: y}}. -/
def recordStore : Node String :=
  Node.mergeInto (Node.ofEntries [(["nested", "foo"], "y")])
    (Node.mergeInto (Node.ofEntries [(["key"], "v"), (["nested", "foo"], "x")]) Node.empty)

/-- The manager `recordManager` after a Load: the store is `recordStore`, the
record holds `key` = v and `nested.foo` = y. -/
def recordLoadedManager : Config (Node String) (Record String) :=
  { recordManager with
    K := some recordStore
    model := (decodeFields testFields recordStore (fun _ => none)).1 }

/-! ## Theorems -/

/-- Unfolding of `Config.Load` on a manager that owns a store, given at most
one context. -/
theorem Config.Load_eq {N C V : Type} [ConfigModel C] (api : Koanf N C V) (mgr : Config N C)
    (ctxs : List Context) (k : N) (hK : mgr.K = some k) (hlen : ctxs.length ≤ 1) :
    mgr.Load api ctxs =
      match Config.Load.loadSources
        (Context.WithTimeout (Config.Load.baseContext ctxs) mgr.loadTimeout) 0 mgr.sources k with
      | (k', some err) => .ret ({ mgr with K := some k' }, some err)
      | (k', none) =>
        match api.Unmarshal k' "" mgr.model with
        | (m', some err) =>
          .ret ({ mgr with K := some k', model := m' },
            some (.wrapf "failed to unmarshal config: %w" [] err))
        | (m', none) =>
          if mgr.validationEnabled then
            match ConfigModel.Validate m' with
            | some err =>
              .ret ({ mgr with K := some k', model := m' },
                some (.wrapf "failed to validate config model: %w" [] err))
            | none => .ret ({ mgr with K := some k', model := m' }, none)
          else .ret ({ mgr with K := some k', model := m' }, none) := by
  have h : ¬ ctxs.length > 1 := by omega
  simp only [Config.Load, h, if_false, hK, Config.Validate]
  rcases Config.Load.loadSources _ 0 mgr.sources k with ⟨k', _ | err⟩
  · simp only
    rcases api.Unmarshal k' "" mgr.model with ⟨m', _ | err⟩
    · simp only
      cases mgr.validationEnabled
      · simp
      · simp only [if_true]
        cases ConfigModel.Validate m' <;> rfl
    · rfl
  · rfl

/-! ### The nested store: merging and key paths -/

/-- Nothing is found below a missing key. -/
theorem Node.get_absent {V : Type} (K : List String) :
    (Node.absent : Node V).get K = .absent := by
  induction K with
  | nil => rfl
  | cons key rest ih => simpa [Node.get, Node.child] using ih

/-- Merging into a missing key gives the merged value. -/
theorem Node.mergeInto_absent {V : Type} (c : Node V) : Node.mergeInto c .absent = c := by
  cases c <;> rfl

/-- A scalar that the merged map has at a key path is at that path after the
merge, whatever the store held. -/
theorem Node.get_mergeInto_of_scalar {V : Type} (K : List String) :
    ∀ (c x : Node V) (v : V), c.get K = .scalar v → (Node.mergeInto c x).get K = .scalar v := by
  induction K with
  | nil =>
    intro c x v h
    simp only [Node.get] at h
    subst h
    rfl
  | cons key rest ih =>
    intro c x v h
    cases c with
    | absent => simp [Node.get, Node.child, Node.get_absent] at h
    | scalar w => simp [Node.get, Node.child, Node.get_absent] at h
    | map s =>
      simp only [Node.get, Node.child] at h
      cases x with
      | map xs =>
        simp only [Node.mergeInto, Node.get, Node.child]
        exact ih (s key) (xs key) v h
      | absent => simpa [Node.mergeInto, Node.get, Node.child] using h
      | scalar w => simpa [Node.mergeInto, Node.get, Node.child] using h

/-- A map that leaves a key path alone has no value there. -/
theorem Node.get_of_silentOn {V : Type} (K : List String) :
    ∀ (c : Node V), c.silentOn K = true → c.get K = .absent := by
  induction K with
  | nil =>
    intro c h
    cases c <;> simp_all [Node.silentOn, Node.get]
  | cons key rest ih =>
    intro c h
    cases c with
    | absent => exact Node.get_absent _
    | scalar w => simp [Node.silentOn] at h
    | map s =>
      simp only [Node.silentOn] at h
      simp only [Node.get, Node.child]
      exact ih (s key) h

/-- Merging a map that leaves a key path alone does not change the value at
that path. -/
theorem Node.get_mergeInto_of_silentOn {V : Type} (K : List String) :
    ∀ (c x : Node V), c.silentOn K = true → (Node.mergeInto c x).get K = x.get K := by
  induction K with
  | nil =>
    intro c x h
    cases c <;> simp_all [Node.silentOn, Node.mergeInto]
  | cons key rest ih =>
    intro c x h
    cases c with
    | absent => rfl
    | scalar w => simp [Node.silentOn] at h
    | map s =>
      simp only [Node.silentOn] at h
      cases x with
      | map xs =>
        simp only [Node.mergeInto, Node.get, Node.child]
        exact ih (s key) (xs key) h
      | absent =>
        simp only [Node.mergeInto, Node.get, Node.child, Node.get_absent]
        exact Node.get_of_silentOn rest (s key) h
      | scalar w =>
        simp only [Node.mergeInto, Node.get, Node.child, Node.get_absent]
        exact Node.get_of_silentOn rest (s key) h

/-- A key path that neither the merged map nor the store has a value at has
none after the merge. -/
theorem Node.get_mergeInto_of_absent {V : Type} (K : List String) :
    ∀ (c x : Node V), c.get K = .absent → x.get K = .absent →
      (Node.mergeInto c x).get K = .absent := by
  induction K with
  | nil =>
    intro c x hc hx
    simp only [Node.get] at hc hx
    subst hc
    subst hx
    rfl
  | cons key rest ih =>
    intro c x hc hx
    cases c with
    | absent => exact hx
    | scalar w => simp [Node.mergeInto, Node.get, Node.child, Node.get_absent]
    | map s =>
      simp only [Node.get, Node.child] at hc
      cases x with
      | map xs =>
        simp only [Node.get, Node.child] at hx
        simp only [Node.mergeInto, Node.get, Node.child]
        exact ih (s key) (xs key) hc hx
      | absent => simpa [Node.mergeInto, Node.get, Node.child] using hc
      | scalar w => simpa [Node.mergeInto, Node.get, Node.child] using hc

/-- A map leaves a key path alone exactly when it has no value at the path and
no scalar at any path that the path extends. -/
theorem Node.silentOn_iff {V : Type} (K : List String) :
    ∀ (c : Node V), c.silentOn K = true ↔
      c.get K = .absent ∧ ∀ (P : List String), P <+: K → ∀ w : V, c.get P ≠ .scalar w := by
  induction K with
  | nil =>
    intro c
    cases c <;> simp [Node.silentOn, Node.get]
  | cons key rest ih =>
    intro c
    cases c with
    | absent => simp [Node.silentOn, Node.get_absent]
    | scalar w =>
      simp only [Node.silentOn, Bool.false_eq_true, false_iff, not_and, not_forall]
      intro _
      exact ⟨[], List.nil_prefix, w, by simp [Node.get]⟩
    | map s =>
      simp only [Node.silentOn, ih (s key), Node.get, Node.child]
      constructor
      · rintro ⟨habs, hpre⟩
        refine ⟨habs, ?_⟩
        intro P hP w
        cases P with
        | nil => simp [Node.get]
        | cons p P' =>
          obtain ⟨rfl, hP'⟩ := List.cons_prefix_cons.mp hP
          simpa [Node.get, Node.child] using hpre P' hP' w
      · rintro ⟨habs, hpre⟩
        refine ⟨habs, ?_⟩
        intro P' hP' w
        have h := hpre (key :: P') (List.cons_prefix_cons.mpr ⟨rfl, hP'⟩) w
        simpa [Node.get, Node.child] using h

/-! ### C1: precedence of the sources -/

/-- Loading map sources never fails and leaves the maps merged in order. -/
theorem loadSources_mapSource {V : Type} (ctx : Context) (ms : List (SourceType × Node V)) :
    ∀ (n : Nat) (k : Node V),
      Config.Load.loadSources ctx n (ms.map (fun p => mapSource p.1 p.2)) k =
        (ms.foldl (fun acc p => Node.mergeInto p.2 acc) k, none) := by
  induction ms with
  | nil => intro n k; rfl
  | cons p rest ih =>
    intro n k
    simp only [List.map_cons, Config.Load.loadSources, mapSource, List.foldl_cons]
    exact ih (n + 1) (Node.mergeInto p.2 k)

/-- A key path that all the merged maps leave alone keeps its value. -/
theorem foldl_mergeInto_silent {V : Type} (K : List String) (ms : List (SourceType × Node V)) :
    ∀ (k : Node V), (∀ (j : Nat) (hj : j < ms.length), (ms[j]).2.silentOn K = true) →
      (ms.foldl (fun acc p => Node.mergeInto p.2 acc) k).get K = k.get K := by
  induction ms with
  | nil => intro k _; rfl
  | cons p rest ih =>
    intro k h
    simp only [List.foldl_cons]
    rw [ih (Node.mergeInto p.2 k) (fun j hj => h (j + 1) (by simpa using hj))]
    have h0 := h 0 (by simp)
    simp only [List.getElem_cons_zero] at h0
    exact Node.get_mergeInto_of_silentOn K p.2 k h0

/-- A key path that none of the merged maps has a value at, and the store has
none at, has none after the merges. -/
theorem foldl_mergeInto_absent {V : Type} (K : List String) (ms : List (SourceType × Node V)) :
    ∀ (k : Node V), k.get K = .absent →
      (∀ (j : Nat) (hj : j < ms.length), (ms[j]).2.get K = .absent) →
      (ms.foldl (fun acc p => Node.mergeInto p.2 acc) k).get K = .absent := by
  induction ms with
  | nil => intro k hk _; exact hk
  | cons p rest ih =>
    intro k hk h
    simp only [List.foldl_cons]
    have h0 := h 0 (by simp)
    simp only [List.getElem_cons_zero] at h0
    exact ih (Node.mergeInto p.2 k) (Node.get_mergeInto_of_absent K p.2 k h0 hk)
      (fun j hj => h (j + 1) (by simpa using hj))

/-- After merging the maps in order, a key path holds the scalar of a map that
the later maps leave alone. -/
theorem foldl_mergeInto_last {V : Type} (K : List String) (v : V)
    (ms : List (SourceType × Node V)) :
    ∀ (k : Node V) (i : Nat) (hi : i < ms.length), (ms[i]).2.get K = .scalar v →
      (∀ (j : Nat) (hj : j < ms.length), i < j → (ms[j]).2.silentOn K = true) →
      (ms.foldl (fun acc p => Node.mergeInto p.2 acc) k).get K = .scalar v := by
  induction ms with
  | nil => intro k i hi; simp at hi
  | cons p rest ih =>
    intro k i hi hv hlater
    simp only [List.foldl_cons]
    cases i with
    | zero =>
      rw [foldl_mergeInto_silent K rest (Node.mergeInto p.2 k)
        (fun j hj => hlater (j + 1) (by simpa using hj) (by omega))]
      simp only [List.getElem_cons_zero] at hv
      exact Node.get_mergeInto_of_scalar K p.2 k v hv
    | succ i =>
      have hi' : i < rest.length := by simpa using hi
      exact ih (Node.mergeInto p.2 k) i hi' (by simpa using hv)
        (fun j hj hij => hlater (j + 1) (by simpa using hj) (by omega))

/-- The sources S1 = {a: {b: 1}} and S2 = {a: 2}, merged into a fresh store by
a Load that succeeds: the key a.b is set by S1 and by no later source, and
after the Load it is absent, because S2 put a scalar at a. -/
theorem load_precedence_counterexample :
    overridingManager.Load (toyKoanf Empty.decode) [] =
      .ret ({ overridingManager with
        K := some (Node.mergeInto (Node.ofEntries [(["a"], "2")])
          (Node.mergeInto (Node.ofEntries [(["a", "b"], "1")]) Node.empty)) }, none) ∧
    (Node.ofEntries [(["a", "b"], "1")] : Node String).get ["a", "b"] = .scalar "1" ∧
    (Node.ofEntries [(["a"], "2")] : Node String).get ["a", "b"] = .absent ∧
    (Node.mergeInto (Node.ofEntries [(["a"], "2")])
      (Node.mergeInto (Node.ofEntries [(["a", "b"], "1")]) Node.empty) : Node String).get
        ["a", "b"] = .absent :=
  ⟨rfl, rfl, rfl, rfl⟩

/-- C1, amended. On a manager with a fresh (empty) store whose sources each merge
a fixed nested map, whatever their kinds, a successful Load leaves a store in
which a key path K holds the scalar v that source i gives it, provided every
later source leaves K alone: it gives K no value and gives no scalar to a path
that K extends. A key path that no source has a value at is absent. -/
theorem load_precedence {C V : Type} [ConfigModel C] (api : Koanf (Node V) C V)
    (mgr mgr' : Config (Node V) C) (ctxs : List Context) (ms : List (SourceType × Node V))
    (hK : mgr.K = some Node.empty)
    (hsrc : mgr.sources = ms.map (fun p => mapSource p.1 p.2))
    (hload : mgr.Load api ctxs = .ret (mgr', none)) (K : List String) :
    ∃ k : Node V, mgr'.K = some k ∧
      (∀ (i : Nat) (hi : i < ms.length) (v : V), (ms[i]).2.get K = .scalar v →
        (∀ (j : Nat) (hj : j < ms.length), i < j → (ms[j]).2.silentOn K = true) →
        k.get K = .scalar v) ∧
      (K ≠ [] → (∀ (j : Nat) (hj : j < ms.length), (ms[j]).2.get K = .absent) →
        k.get K = .absent) := by
  have hlen : ctxs.length ≤ 1 := by
    by_contra hgt
    have hgt' : ctxs.length > 1 := by omega
    simp [Config.Load, hgt'] at hload
  rw [Config.Load_eq api mgr ctxs Node.empty hK hlen, hsrc, loadSources_mapSource] at hload
  refine ⟨ms.foldl (fun acc p => Node.mergeInto p.2 acc) Node.empty, ?_, ?_, ?_⟩
  · simp only at hload
    repeat' split at hload
    all_goals first
      | (simp at hload; done)
      | (injection hload with h; injection h with h1 _; rw [← h1])
  · intro i hi v hv hlater
    exact foldl_mergeInto_last K v ms Node.empty i hi hv hlater
  · intro hne hnone
    refine foldl_mergeInto_absent K ms Node.empty ?_ hnone
    cases K with
    | nil => exact absurd rfl hne
    | cons key rest => exact Node.get_absent rest

/-- C1, amended, on S1 = {a:1, b:2} (kind default) and S2 = {b:3} (kind env):
Load succeeds and the store holds a = 1 (from S1, as S2 leaves a alone) and
b = 3. -/
theorem load_precedence_witness :
    ∃ k : Node String,
      precedenceManager.Load (toyKoanf Empty.decode) [] =
          .ret ({ precedenceManager with K := some k }, none)
        ∧ k.get ["a"] = .scalar "1" ∧ k.get ["b"] = .scalar "3" := by
  have hload : precedenceManager.Load (toyKoanf Empty.decode) [] =
      .ret ({ precedenceManager with
        K := some (Node.mergeInto (Node.ofEntries [(["b"], "3")])
          (Node.mergeInto (Node.ofEntries [(["a"], "1"), (["b"], "2")]) Node.empty)) },
        none) := rfl
  obtain ⟨k, hk, hlast, _⟩ := load_precedence (toyKoanf Empty.decode) precedenceManager _ []
    precedenceMaps rfl rfl hload ["a"]
  obtain ⟨k2, hk2, hlast2, _⟩ := load_precedence (toyKoanf Empty.decode) precedenceManager _ []
    precedenceMaps rfl rfl hload ["b"]
  simp only [Option.some.injEq] at hk hk2
  subst hk
  subst hk2
  refine ⟨_, hload, ?_, ?_⟩
  · exact hlast 0 (by decide) "1" rfl (by
      intro j hj hij
      have hj1 : j = 1 := by
        have : j < 2 := hj
        omega
      subst hj1
      rfl)
  · exact hlast2 1 (by decide) "3" rfl (by
      intro j hj hij
      have : j < 2 := hj
      omega)

/-! ### Lemmas on `New` -/

/-- Options that all apply are followed by the remaining ones, numbered on. -/
theorem New.applyOptions_append {N C : Type} (opts rest : List (OptionFn N C)) :
    ∀ (n : Nat) (mgr mgr1 : Config N C),
      New.applyOptions n opts mgr = .ret (.ok mgr1) →
      New.applyOptions n (opts ++ rest) mgr = New.applyOptions (n + opts.length) rest mgr1 := by
  induction opts with
  | nil =>
    intro n mgr mgr1 h
    simp only [New.applyOptions] at h
    injection h with h
    injection h with h
    subst h
    rfl
  | cons opt opts ih =>
    intro n mgr mgr1 h
    simp only [New.applyOptions, List.cons_append, List.length_cons] at h ⊢
    cases hopt : opt mgr with
    | panic v => simp [hopt] at h
    | ret r =>
      obtain ⟨mgr2, _ | err⟩ := r
      · simp only [hopt] at h ⊢
        have hih := ih (n + 1) mgr2 mgr1 h
        have hidx : n + 1 + opts.length = n + (opts.length + 1) := by omega
        rw [hidx] at hih
        exact hih
      · simp [hopt] at h

/-- What `New` returns once its options have applied. -/
theorem New_eq_of_applyOptions {N C V : Type} (api : Koanf N C V) (c : C)
    (opts : List (OptionFn N C)) (mgr : Config N C)
    (h : New.applyOptions 0 opts
      (New.init c) = .ret (.ok mgr)) :
    New api c opts =
      match New.checkSources 0 mgr.sources with
      | some err => .ret (.error err)
      | none =>
        .ret (.ok { mgr with
          K := some (api.NewWithConf
            { Delim := defaultDelimiter, StrictMerge := mgr.strictMerge }) }) := by
  unfold New.init at h
  simp only [New, h]

/-- When `New` succeeds, its options have applied and every kind is valid. -/
theorem New_ok_inv {N C V : Type} (api : Koanf N C V) (c : C)
    (opts : List (OptionFn N C)) (mgr : Config N C) (h : New api c opts = .ret (.ok mgr)) :
    ∃ mgr0 : Config N C,
      New.applyOptions 0 opts
        (New.init c) = .ret (.ok mgr0) ∧
      New.checkSources 0 mgr0.sources = none ∧
      mgr = { mgr0 with
        K := some (api.NewWithConf
          { Delim := defaultDelimiter, StrictMerge := mgr0.strictMerge }) } := by
  simp only [New] at h
  unfold New.init
  split at h
  · simp at h
  · simp at h
  · rename_i mgr0 happly
    split at h
    · simp at h
    · rename_i hcheck
      injection h with h
      injection h with h
      exact ⟨mgr0, happly, hcheck, h.symm⟩

/-! ### C2: validation gating -/

/-- C2. On a manager whose sources all load (leaving store k') and whose store
unmarshals into the model (giving m'), when Validate rejects m': Load returns
the wrapped validation error if validation is enabled and no error if it is
disabled, the manager holding the merged store and the model m' in both cases.
Validation is enabled in a manager built by New without options, and
appending WithValidation(false) to the options of a successful New yields the
same manager with validation disabled. -/
theorem load_validation_gating {N C V : Type} [ConfigModel C] (api : Koanf N C V)
    (mgr : Config N C) (ctxs : List Context) (k k' : N) (m' : C) (e : Error)
    (hK : mgr.K = some k) (hlen : ctxs.length ≤ 1)
    (hsrc : Config.Load.loadSources
      (Context.WithTimeout (Config.Load.baseContext ctxs) mgr.loadTimeout) 0 mgr.sources k
        = (k', none))
    (hum : api.Unmarshal k' "" mgr.model = (m', none))
    (hval : ConfigModel.Validate m' = some e) :
    (mgr.validationEnabled = true →
      mgr.Load api ctxs =
        .ret ({ mgr with K := some k', model := m' },
          some (.wrapf "failed to validate config model: %w" [] e))) ∧
    (mgr.validationEnabled = false →
      mgr.Load api ctxs = .ret ({ mgr with K := some k', model := m' }, none)) ∧
    (∀ c : C, ∃ mgr0 : Config N C,
      New api c [] = .ret (.ok mgr0) ∧ mgr0.validationEnabled = true) ∧
    (∀ (c : C) (opts : List (OptionFn N C)) (mgr1 : Config N C),
      New api c opts = .ret (.ok mgr1) →
      New api c (opts ++ [WithValidation false]) =
        .ret (.ok { mgr1 with validationEnabled := false })) := by
  refine ⟨?_, ?_, ?_, ?_⟩
  · intro hv
    rw [Config.Load_eq api mgr ctxs k hK hlen, hsrc]
    simp only [hum, hv, if_true, hval]
  · intro hv
    rw [Config.Load_eq api mgr ctxs k hK hlen, hsrc]
    simp [hum, hv]
  · intro c
    exact ⟨_, rfl, rfl⟩
  · intro c opts mgr1 hnew
    obtain ⟨mgr0, happly, hcheck, hmgr⟩ := New_ok_inv api c opts mgr1 hnew
    have happ := New.applyOptions_append opts [WithValidation false] 0 _ mgr0 happly
    have h2 : New.applyOptions 0 (opts ++ [WithValidation false])
        (New.init c) = .ret (.ok { mgr0 with validationEnabled := false }) := by
      rw [happ]
      rfl
    rw [New_eq_of_applyOptions api c _ _ h2]
    simp only [hcheck, hmgr]

/-- C2 on the document key = "v", abc = "x": with validation enabled Load
returns the validation error, and the model holds the invalid values. -/
theorem load_validation_gating_witness :
    (defaultsManager invalidDocument true).Load (toyKoanf TestModel.decode) [] =
      .ret ({ defaultsManager invalidDocument true with
          K := some (Node.mergeInto (Node.ofEntries [(["key"], "v"), (["abc"], "x")])
            Node.empty)
          model := { Key := "v", ABC := "x", Foo := "" } },
        some (.wrapf "failed to validate config model: %w" []
          (.new "ABC must be length 3 if present"))) :=
  (load_validation_gating (toyKoanf TestModel.decode) (defaultsManager invalidDocument true) []
    Node.empty (Node.mergeInto (Node.ofEntries [(["key"], "v"), (["abc"], "x")]) Node.empty)
    { Key := "v", ABC := "x", Foo := "" } (.new "ABC must be length 3 if present")
    rfl (by decide) rfl rfl rfl).1 rfl

/-! ### C3: the optional-source wrapper at load time -/

/-- The closure `isAllowedError` accepts everything when the list is empty. -/
theorem OptionalSource.isAllowedError_nil (err : Error) :
    OptionalSource.isAllowedError [] err = true := rfl

/-- The closure `isAllowedError` on a non-empty list: some element matches. -/
theorem OptionalSource.isAllowedError_eq (allowedErrors : List Error) (err : Error)
    (h : allowedErrors ≠ []) :
    OptionalSource.isAllowedError allowedErrors err =
      allowedErrors.any (fun allowed => errorsIs err allowed) := by
  have hlen : allowedErrors.length ≠ 0 := by
    intro h0
    exact h (List.length_eq_zero.mp h0)
  simp [OptionalSource.isAllowedError, hlen]

/-- C3. Let a constructor build a source whose load always fails with error E,
and wrap it in OptionalSource with allowed list A. The wrapper builds a source
of the same kind that leaves the store as the inner load left it and whose load
returns no error when A is empty, no error when some element of A matches E
(errors.Is), and E when A is non-empty and no element matches. Accordingly the
source loop of Load goes on to the next source in the first two cases and
stops with the wrapped error in the third, and Load of a manager holding this
source then returns that error. -/
theorem optional_source_suppression {N C V : Type} [ConfigModel C] (api : Koanf N C V)
    (inner : SourceFunc N C) (innerSrc : Source N) (mgr : Config N C) (E : Error)
    (A : List Error)
    (hctor : inner mgr = .ret (.ok innerSrc))
    (hfail : ∀ (ctx : Context) (k : N), (innerSrc.Load ctx k).2 = some E) :
    ∃ src : Source N, OptionalSource (some inner) A mgr = .ret (.ok src) ∧
      src.Typ = innerSrc.Typ ∧
      (∀ (ctx : Context) (k : N), (src.Load ctx k).1 = (innerSrc.Load ctx k).1) ∧
      (A = [] → ∀ (ctx : Context) (k : N) (n : Nat) (rest : List (Source N)),
        (src.Load ctx k).2 = none ∧
        Config.Load.loadSources ctx n (src :: rest) k =
          Config.Load.loadSources ctx (n + 1) rest (innerSrc.Load ctx k).1) ∧
      ((∃ a ∈ A, errorsIs E a = true) →
        ∀ (ctx : Context) (k : N) (n : Nat) (rest : List (Source N)),
        (src.Load ctx k).2 = none ∧
        Config.Load.loadSources ctx n (src :: rest) k =
          Config.Load.loadSources ctx (n + 1) rest (innerSrc.Load ctx k).1) ∧
      (A ≠ [] → (∀ a ∈ A, errorsIs E a = false) →
        (∀ (ctx : Context) (k : N) (n : Nat) (rest : List (Source N)),
          (src.Load ctx k).2 = some E ∧
          Config.Load.loadSources ctx n (src :: rest) k =
            ((innerSrc.Load ctx k).1,
              some (.wrapf "failed to load config from provider %d (type=%s): %w"
                [.int n, .str innerSrc.Typ] E))) ∧
        (∀ (mgrL : Config N C) (ctxs : List Context) (k : N) (rest : List (Source N)),
          mgrL.K = some k → mgrL.sources = src :: rest → ctxs.length ≤ 1 →
          mgrL.Load api ctxs =
            .ret ({ mgrL with
                K := some (innerSrc.Load
                  (Context.WithTimeout (Config.Load.baseContext ctxs) mgrL.loadTimeout) k).1 },
              some (.wrapf "failed to load config from provider %d (type=%s): %w"
                [.int 0, .str innerSrc.Typ] E)))) := by
  have hpair : ∀ (ctx : Context) (k : N),
      innerSrc.Load ctx k = ((innerSrc.Load ctx k).1, some E) := by
    intro ctx k
    rw [← hfail ctx k]
  have hallowed : OptionalSource.isAllowedError A E = true →
      ∀ (ctx : Context) (k : N) (n : Nat) (rest : List (Source N)),
        (match innerSrc.Load ctx k with
          | (k', some err) =>
            if (!OptionalSource.isAllowedError A err) = true then (k', some err) else (k', none)
          | (k', none) => (k', none)).2 = none ∧
        Config.Load.loadSources ctx n
          ({ Typ := innerSrc.Typ
             Load := fun ctx k =>
               match innerSrc.Load ctx k with
               | (k', some err) =>
                 if (!OptionalSource.isAllowedError A err) = true then (k', some err)
                 else (k', none)
               | (k', none) => (k', none) } :: rest) k =
          Config.Load.loadSources ctx (n + 1) rest (innerSrc.Load ctx k).1 := by
    intro hA ctx k n rest
    simp only [Config.Load.loadSources]
    rw [hpair ctx k]
    simp [hA]
  have hdenied : OptionalSource.isAllowedError A E = false →
      ∀ (ctx : Context) (k : N) (n : Nat) (rest : List (Source N)),
        (match innerSrc.Load ctx k with
          | (k', some err) =>
            if (!OptionalSource.isAllowedError A err) = true then (k', some err) else (k', none)
          | (k', none) => (k', none)).2 = some E ∧
        Config.Load.loadSources ctx n
          ({ Typ := innerSrc.Typ
             Load := fun ctx k =>
               match innerSrc.Load ctx k with
               | (k', some err) =>
                 if (!OptionalSource.isAllowedError A err) = true then (k', some err)
                 else (k', none)
               | (k', none) => (k', none) } :: rest) k =
          ((innerSrc.Load ctx k).1,
            some (.wrapf "failed to load config from provider %d (type=%s): %w"
              [.int n, .str innerSrc.Typ] E)) := by
    intro hA ctx k n rest
    simp only [Config.Load.loadSources]
    rw [hpair ctx k]
    simp [hA]
  have hwrap : OptionalSource (some inner) A mgr =
      .ret (.ok
        { Typ := innerSrc.Typ
          Load := fun ctx k =>
            match innerSrc.Load ctx k with
            | (k', some err) =>
              if (!OptionalSource.isAllowedError A err) = true then (k', some err)
              else (k', none)
            | (k', none) => (k', none) }) := by
    simp only [OptionalSource, hctor]
  refine ⟨_, hwrap, rfl, ?_, ?_, ?_, ?_⟩
  · intro ctx k
    simp only
    rw [hpair ctx k]
    simp only
    split <;> rfl
  · intro hA
    subst hA
    exact hallowed (OptionalSource.isAllowedError_nil E)
  · rintro ⟨a, ha, hmatch⟩
    have hne : A ≠ [] := by
      intro h
      subst h
      simp at ha
    have hA : OptionalSource.isAllowedError A E = true := by
      rw [OptionalSource.isAllowedError_eq A E hne, List.any_eq_true]
      exact ⟨a, ha, hmatch⟩
    exact hallowed hA
  · intro hne hnone
    have hA : OptionalSource.isAllowedError A E = false := by
      rw [OptionalSource.isAllowedError_eq A E hne, List.any_eq_false]
      intro a ha
      simp [hnone a ha]
    refine ⟨hdenied hA, ?_⟩
    intro mgrL ctxs k rest hK hsrcs hlen
    rw [Config.Load_eq api mgrL ctxs k hK hlen, hsrcs, (hdenied hA _ k 0 rest).2]

/-- C3 on the source of the test, whose load always fails with `myError`:
allowing only the other error lets the error through, and allowing `myError`
itself suppresses it. -/
theorem optional_source_suppression_witness :
    (∃ src : Source (Node String),
      OptionalSource (some myErrorSource) [someOtherError] (New.init Empty.mk) =
          .ret (.ok src) ∧
        (src.Load Context.Background Node.empty).2 = some myError) ∧
    (∃ src : Source (Node String),
      OptionalSource (some myErrorSource) [myError] (New.init Empty.mk) = .ret (.ok src) ∧
        (src.Load Context.Background Node.empty).2 = none) := by
  obtain ⟨src, h, _, _, _, _, hdenied⟩ :=
    optional_source_suppression (toyKoanf Empty.decode) myErrorSource
      { Typ := SourceTypeDefault, Load := fun _ k => (k, some myError) }
      (New.init Empty.mk) myError [someOtherError] rfl (fun _ _ => rfl)
  obtain ⟨src2, h2, _, _, _, hallowed, _⟩ :=
    optional_source_suppression (toyKoanf Empty.decode) myErrorSource
      { Typ := SourceTypeDefault, Load := fun _ k => (k, some myError) }
      (New.init Empty.mk) myError [myError] rfl (fun _ _ => rfl)
  exact ⟨⟨src, h, ((hdenied (by simp) (by decide)).1 Context.Background Node.empty 0 []).1⟩,
    ⟨src2, h2,
      ((hallowed ⟨myError, by simp, by decide⟩) Context.Background Node.empty 0 []).1⟩⟩

/-! ### C4: the optional-source wrapper at construction time -/

/-- C4. Whatever the allowed list A: OptionalSource applied to a constructor
that returns a construction error returns that same error, and applied to a
nil constructor returns the error "source cannot be nil"; New given such a
source through WithSource fails with that error, wrapped with the index of the
source and of the option. -/
theorem optional_source_construction_error {N C V : Type} (api : Koanf N C V)
    (inner : SourceFunc N C) (A : List Error) (e : Error) (mgr : Config N C)
    (hctor : inner mgr = .ret (.error e)) :
    OptionalSource (some inner) A mgr = .ret (.error e) ∧
    OptionalSource none A mgr = .ret (.error (.errorf "source cannot be nil" [])) ∧
    (∀ (c : C) (e0 : Error), inner (New.init c) = .ret (.error e0) →
      New api c [WithSource [OptionalSource (some inner) A]] =
        .ret (.error (.wrapf "failed to apply option %d: %w" [.int 0]
          (.wrapf "failed to create source %d: %w" [.int 0] e0)))) ∧
    (∀ c : C,
      New api c [WithSource [OptionalSource none A]] =
        .ret (.error (.wrapf "failed to apply option %d: %w" [.int 0]
          (.wrapf "failed to create source %d: %w" [.int 0]
            (.errorf "source cannot be nil" []))))) := by
  refine ⟨?_, rfl, ?_, ?_⟩
  · simp only [OptionalSource, hctor]
  · intro c e0 h0
    unfold New.init at h0
    simp only [New, New.applyOptions, WithSource, WithSource.loop, OptionalSource, h0]
  · intro c
    rfl

/-- C4 on the test's constructor, embedded defaults of file type "invalid",
wrapped with a non-empty allowed list: the construction error comes through. -/
theorem optional_source_construction_error_witness :
    OptionalSource (some (EmbeddedDefaults (toyKoanf Empty.decode) [] "invalid"))
        [myError] (New.init Empty.mk) =
      .ret (.error (.errorf "invalid config file type: %s" [.str "invalid"])) :=
  (optional_source_construction_error (toyKoanf Empty.decode)
    (EmbeddedDefaults (toyKoanf Empty.decode) [] "invalid") [myError]
    (.errorf "invalid config file type: %s" [.str "invalid"]) (New.init Empty.mk) rfl).1

/-! ### C5: kinds are checked by `New` -/

/-- The method `Valid` accepts exactly the five declared kinds. -/
theorem SourceType.Valid_eq_none_iff (p : SourceType) :
    SourceType.Valid p = none ↔ p ∈ ["default", "file", "env", "pflag", "struct"] := by
  simp only [SourceType.Valid, SourceTypeDefault, SourceTypeLocalFile, SourceTypeEnv,
    SourceTypePFlag, SourceTypeStruct, List.mem_cons, List.mem_singleton, List.not_mem_nil,
    or_false]
  split <;> simp_all

/-- The error `Valid` returns for any other kind. -/
theorem SourceType.Valid_of_not_mem (p : SourceType)
    (h : p ∉ ["default", "file", "env", "pflag", "struct"]) :
    SourceType.Valid p = some (.errorf "invalid provider type: %s" [.str p]) := by
  have hne : SourceType.Valid p ≠ none := fun h0 => h ((SourceType.Valid_eq_none_iff p).mp h0)
  simp only [SourceType.Valid] at hne ⊢
  split
  · rename_i hc
    simp [hc] at hne
  · rfl

/-- The kind check passes when every kind is valid. -/
theorem New.checkSources_valid {N : Type} (srcs : List (Source N)) :
    ∀ (n : Nat),
      (∀ (j : Nat) (hj : j < srcs.length),
        (srcs[j]).Typ ∈ ["default", "file", "env", "pflag", "struct"]) →
      New.checkSources n srcs = none := by
  induction srcs with
  | nil => intro n _; rfl
  | cons src rest ih =>
    intro n h
    have h0 := (SourceType.Valid_eq_none_iff src.Typ).mpr (h 0 (by simp))
    simp only [New.checkSources, h0]
    exact ih (n + 1) (fun j hj => h (j + 1) (by simpa using hj))

/-- The kind check reports the first source whose kind is invalid. -/
theorem New.checkSources_invalid {N : Type} (srcs : List (Source N)) :
    ∀ (n i : Nat) (hi : i < srcs.length),
      (srcs[i]).Typ ∉ ["default", "file", "env", "pflag", "struct"] →
      (∀ (j : Nat) (hj : j < srcs.length), j < i →
        (srcs[j]).Typ ∈ ["default", "file", "env", "pflag", "struct"]) →
      New.checkSources n srcs =
        some (.wrapf "invalid source type for provider %d: %w" [.int (n + i)]
          (.errorf "invalid provider type: %s" [.str (srcs[i]).Typ])) := by
  induction srcs with
  | nil => intro n i hi; simp at hi
  | cons src rest ih =>
    intro n i hi hbad hbefore
    cases i with
    | zero =>
      simp only [List.getElem_cons_zero] at hbad
      simp only [New.checkSources, SourceType.Valid_of_not_mem src.Typ hbad,
        List.getElem_cons_zero, Nat.add_zero]
    | succ i =>
      have h0 := (SourceType.Valid_eq_none_iff src.Typ).mpr (hbefore 0 (by simp) (by omega))
      have hi' : i < rest.length := by simpa using hi
      simp only [New.checkSources, h0, List.getElem_cons_succ]
      have hih := ih (n + 1) i hi' (by simpa using hbad)
        (fun j hj hji => hbefore (j + 1) (by simpa using hj) (by omega))
      have hidx : n + 1 + i = n + (i + 1) := by omega
      rw [hidx] at hih
      exact hih

/-- The options of the tests "Source with invalid type" and "Option errors"
together: the first registers a source of kind "invalid", the second fails.
New returns the error of option 1 and does not name the source. -/
theorem new_rejects_invalid_kind_counterexample :
    withRawSource myInvalidSource (New.init Empty.mk) =
      .ret ({ (New.init Empty.mk : Config (Node String) Empty) with
        sources := [myInvalidSource] }, none) ∧
    myInvalidSource.Typ ∉ ["default", "file", "env", "pflag", "struct"] ∧
    New (toyKoanf Empty.decode) Empty.mk [withRawSource myInvalidSource, failingOption] =
      .ret (.error (.wrapf "failed to apply option %d: %w" [.int 1] (.new "error"))) :=
  ⟨rfl, by decide, rfl⟩

/-- C5, amended. Let the options apply without error and register the sources of mgr1.
If some registered kind is not one of default, file, env, pflag, struct, and i
is the first index of such a source, New returns no manager but the error
"invalid source type for provider i" wrapping the kind's error, and Init returns
that error wrapped, without reaching Load: no load operation runs. If every
registered kind is one of the five, New succeeds with the manager the options
built and a new store. -/
theorem new_rejects_invalid_kind {N C V : Type} [ConfigModel C] (api : Koanf N C V) (c : C)
    (opts : List (OptionFn N C)) (mgr1 : Config N C)
    (happly : New.applyOptions 0 opts (New.init c) = .ret (.ok mgr1)) :
    (∀ (i : Nat) (hi : i < mgr1.sources.length),
      (mgr1.sources[i]).Typ ∉ ["default", "file", "env", "pflag", "struct"] →
      (∀ (j : Nat) (hj : j < mgr1.sources.length), j < i →
        (mgr1.sources[j]).Typ ∈ ["default", "file", "env", "pflag", "struct"]) →
      New api c opts =
          .ret (.error (.wrapf "invalid source type for provider %d: %w" [.int i]
            (.errorf "invalid provider type: %s" [.str (mgr1.sources[i]).Typ]))) ∧
        Init api c opts =
          .ret (.error (.wrapf "failed to create new config manager: %w" []
            (.wrapf "invalid source type for provider %d: %w" [.int i]
              (.errorf "invalid provider type: %s" [.str (mgr1.sources[i]).Typ]))))) ∧
    ((∀ (j : Nat) (hj : j < mgr1.sources.length),
        (mgr1.sources[j]).Typ ∈ ["default", "file", "env", "pflag", "struct"]) →
      New api c opts =
        .ret (.ok { mgr1 with
          K := some (api.NewWithConf
            { Delim := defaultDelimiter, StrictMerge := mgr1.strictMerge }) })) := by
  refine ⟨?_, ?_⟩
  · intro i hi hbad hbefore
    have hcheck := New.checkSources_invalid mgr1.sources 0 i hi hbad hbefore
    rw [Nat.zero_add] at hcheck
    have hnew : New api c opts =
        .ret (.error (.wrapf "invalid source type for provider %d: %w" [.int i]
          (.errorf "invalid provider type: %s" [.str (mgr1.sources[i]).Typ]))) := by
      rw [New_eq_of_applyOptions api c opts mgr1 happly, hcheck]
    refine ⟨hnew, ?_⟩
    simp only [Init, hnew]
  · intro hall
    rw [New_eq_of_applyOptions api c opts mgr1 happly,
      New.checkSources_valid mgr1.sources 0 hall]

/-- C5 on the test "Source with invalid type": a raw source of kind "invalid"
makes New fail, naming provider 0. -/
theorem new_rejects_invalid_kind_witness :
    New (toyKoanf Empty.decode) Empty.mk [withRawSource myInvalidSource] =
      .ret (.error (.wrapf "invalid source type for provider %d: %w" [.int 0]
        (.errorf "invalid provider type: %s" [.str "invalid"]))) :=
  ((new_rejects_invalid_kind (toyKoanf Empty.decode) Empty.mk [withRawSource myInvalidSource]
    { (New.init Empty.mk : Config (Node String) Empty) with sources := [myInvalidSource] }
    rfl).1 0 (by decide) (by decide) (fun j _ hj => absurd hj (Nat.not_lt_zero j))).1

/-! ### C6: a failing option aborts `New` -/

/-- C6. If the options before index i apply without error and option i returns
an error e, New returns no manager but the error "failed to apply option i"
wrapping e, whatever options follow: the result is that of the list cut after
option i, so no later option is applied. -/
theorem new_option_error {N C V : Type} (api : Koanf N C V) (c : C)
    (pre rest : List (OptionFn N C)) (opt : OptionFn N C) (mgr1 mgr2 : Config N C) (e : Error)
    (hpre : New.applyOptions 0 pre (New.init c) = .ret (.ok mgr1))
    (hopt : opt mgr1 = .ret (mgr2, some e)) :
    New api c (pre ++ opt :: rest) =
        .ret (.error (.wrapf "failed to apply option %d: %w" [.int pre.length] e)) ∧
      New api c (pre ++ opt :: rest) = New api c (pre ++ [opt]) := by
  have h : ∀ tail : List (OptionFn N C), New api c (pre ++ opt :: tail) =
      .ret (.error (.wrapf "failed to apply option %d: %w" [.int pre.length] e)) := by
    intro tail
    have happ := New.applyOptions_append pre (opt :: tail) 0 (New.init c) mgr1 hpre
    rw [Nat.zero_add] at happ
    simp only [New.applyOptions, hopt] at happ
    unfold New.init at happ
    simp only [New, happ]
  exact ⟨h rest, (h rest).trans (h []).symm⟩

/-- C6 on the test "Option errors", with a valid option before the failing
one and one after it. -/
theorem new_option_error_witness :
    New (toyKoanf Empty.decode) Empty.mk
        ([WithValidation false] ++ failingOption :: [withRawSource myInvalidSource]) =
      .ret (.error (.wrapf "failed to apply option %d: %w" [.int 1] (.new "error"))) :=
  (new_option_error (toyKoanf Empty.decode) Empty.mk [WithValidation false]
    [withRawSource myInvalidSource] failingOption
    { (New.init Empty.mk : Config (Node String) Empty) with validationEnabled := false }
    { (New.init Empty.mk : Config (Node String) Empty) with validationEnabled := false }
    (.new "error") rfl rfl).1

/-! ### C7: Load fails fast and rolls nothing back -/

/-- Sources that all load are followed by the remaining ones, numbered on. -/
theorem Config.Load.loadSources_append {N : Type} (ctx : Context) (pre rest : List (Source N)) :
    ∀ (n : Nat) (k k1 : N),
      Config.Load.loadSources ctx n pre k = (k1, none) →
      Config.Load.loadSources ctx n (pre ++ rest) k =
        Config.Load.loadSources ctx (n + pre.length) rest k1 := by
  induction pre with
  | nil =>
    intro n k k1 h
    simp only [Config.Load.loadSources, Prod.mk.injEq, and_true] at h
    subst h
    rfl
  | cons src pre ih =>
    intro n k k1 h
    simp only [Config.Load.loadSources, List.cons_append, List.length_cons] at h ⊢
    rcases hsrc : src.Load ctx k with ⟨k2, _ | err⟩
    · simp only [hsrc] at h ⊢
      have hih := ih (n + 1) k2 k1 h
      have hidx : n + 1 + pre.length = n + (pre.length + 1) := by omega
      rw [hidx] at hih
      exact hih
    · simp [hsrc] at h

/-- C7. On a manager whose sources before index i all load (leaving store k1)
and whose source i fails with e (leaving store k2), Load returns the error
"failed to load config from provider i (type=kind of source i)" wrapping e.
The manager keeps its model as it was (nothing is unmarshalled or validated,
whatever the store's Unmarshal and the model's Validate do) and holds the store
k2: what sources 0..i-1 produced plus what source i did, nothing rolled back.
The result is that of the source list cut after source i: no later source
runs. -/
theorem load_fail_fast {N C V : Type} [ConfigModel C] (api : Koanf N C V) (mgr : Config N C)
    (ctxs : List Context) (pre rest : List (Source N)) (src : Source N) (k k1 k2 : N)
    (e : Error)
    (hK : mgr.K = some k) (hlen : ctxs.length ≤ 1) (hsrcs : mgr.sources = pre ++ src :: rest)
    (hpre : Config.Load.loadSources
      (Context.WithTimeout (Config.Load.baseContext ctxs) mgr.loadTimeout) 0 pre k = (k1, none))
    (hfail : src.Load (Context.WithTimeout (Config.Load.baseContext ctxs) mgr.loadTimeout) k1
      = (k2, some e)) :
    mgr.Load api ctxs =
        .ret ({ mgr with K := some k2 },
          some (.wrapf "failed to load config from provider %d (type=%s): %w"
            [.int pre.length, .str src.Typ] e)) ∧
      ∃ mgrCut : Config N C,
        ({ mgr with sources := pre ++ [src] } : Config N C).Load api ctxs =
            .ret (mgrCut,
              some (.wrapf "failed to load config from provider %d (type=%s): %w"
                [.int pre.length, .str src.Typ] e)) ∧
          mgrCut.K = some k2 ∧ mgrCut.model = mgr.model := by
  have h : ∀ (tail : List (Source N)),
      Config.Load.loadSources
        (Context.WithTimeout (Config.Load.baseContext ctxs) mgr.loadTimeout) 0
        (pre ++ src :: tail) k =
      (k2, some (.wrapf "failed to load config from provider %d (type=%s): %w"
        [.int pre.length, .str src.Typ] e)) := by
    intro tail
    rw [Config.Load.loadSources_append _ pre (src :: tail) 0 k k1 hpre, Nat.zero_add]
    simp only [Config.Load.loadSources, hfail]
  refine ⟨?_, ?_⟩
  · rw [Config.Load_eq api mgr ctxs k hK hlen, hsrcs, h rest]
  · refine ⟨{ mgr with sources := pre ++ [src], K := some k2 }, ?_, rfl, rfl⟩
    have hcut := Config.Load_eq api ({ mgr with sources := pre ++ [src] } : Config N C)
      ctxs k hK hlen
    simp only [h []] at hcut
    exact hcut

/-- C7 on three sources, {a:1}, defaults that do not parse, {b:2}: Load fails
at provider 1 of kind default, and the store holds a = 1 and no b. -/
theorem load_fail_fast_witness :
    brokenManager.Load (toyKoanf Empty.decode) [] =
      .ret ({ brokenManager with
          K := some (Node.mergeInto (Node.ofEntries [(["a"], "1")]) Node.empty) },
        some (.wrapf "failed to load config from provider %d (type=%s): %w"
          [.int 1, .str "default"]
          (.wrapf "failed to load config from embedded defaults: %w" []
            (.new "parse error")))) :=
  (load_fail_fast (toyKoanf Empty.decode) brokenManager []
    [mapSource SourceTypeEnv (Node.ofEntries [(["a"], "1")])]
    [mapSource SourceTypeStruct (Node.ofEntries [(["b"], "2")])]
    brokenDefaults Node.empty (Node.mergeInto (Node.ofEntries [(["a"], "1")]) Node.empty)
    (Node.mergeInto (Node.ofEntries [(["a"], "1")]) Node.empty)
    (.wrapf "failed to load config from embedded defaults: %w" [] (.new "parse error"))
    rfl (by decide) rfl rfl rfl).1

/-! ### The managers of the tests are what `New` and `Init` return -/

/-- The manager `defaultsManager` is what `New` builds, with validation on by
default and off after `WithValidation(false)`. -/
theorem New_defaultsManager (doc : List UInt8) :
    New (toyKoanf TestModel.decode) { Key := "", ABC := "", Foo := "" }
        [WithSource [EmbeddedDefaults (toyKoanf TestModel.decode) doc FileTypeTOML]] =
      .ret (.ok (defaultsManager doc true)) ∧
    New (toyKoanf TestModel.decode) { Key := "", ABC := "", Foo := "" }
        [WithSource [EmbeddedDefaults (toyKoanf TestModel.decode) doc FileTypeTOML],
          WithValidation false] =
      .ret (.ok (defaultsManager doc false)) := by
  constructor <;>
    simp [New, New.applyOptions, New.checkSources, WithSource, WithSource.loop, WithValidation,
      EmbeddedDefaults, ConfigFileType.Valid, ConfigFileType.Parser, FileTypeTOML, FileTypeYAML,
      FileTypeJSON, SourceType.Valid, SourceTypeDefault, defaultsManager, defaultsSource,
      toyKoanf, nodeKoanf, toyRead, defaultDelimiter] <;>
    (funext _ k; cases toyParse doc <;> rfl)

/-- The manager `loadedManager` is what `Init` returns on the valid document. -/
theorem Init_loadedManager :
    Init (toyKoanf TestModel.decode) { Key := "", ABC := "", Foo := "" }
        [WithSource [EmbeddedDefaults (toyKoanf TestModel.decode) validDocument FileTypeTOML]] =
      .ret (.ok loadedManager) :=
  rfl

/-! ### C8: Set -/

/-- C8. On a manager with a store, when the store's Set of the key succeeds
(leaving store k') and k' unmarshals into the model (giving m'), Set returns no
error and the manager holds k' and the model m', the decoding of the whole
store after the set. This holds whatever the sources of the manager are (no
load runs) and whatever Validate says of m' (Set does not validate). -/
theorem set_updates_model {N C V : Type} [ConfigModel C] (api : Koanf N C V)
    (mgr : Config N C) (key : String) (value : V) (k k' : N) (m' : C)
    (hK : mgr.K = some k) (hset : api.Set k key value = (k', none))
    (hum : api.Unmarshal k' "" mgr.model = (m', none)) :
    mgr.Set api key value = .ret ({ mgr with K := some k', model := m' }, none) ∧
      ({ mgr with K := some k', model := m' } : Config N C).Model = m' ∧
      (∀ srcs : List (Source N),
        ({ mgr with sources := srcs } : Config N C).Set api key value =
          .ret ({ mgr with sources := srcs, K := some k', model := m' }, none)) ∧
      (∀ e : Error, ConfigModel.Validate m' = some e →
        ∃ mgr' : Config N C, mgr.Set api key value = .ret (mgr', none) ∧ mgr'.Model = m') := by
  have h : mgr.Set api key value = .ret ({ mgr with K := some k', model := m' }, none) := by
    simp only [Config.Set, hK, hset, hum]
  refine ⟨h, rfl, ?_, ?_⟩
  · intro srcs
    simp only [Config.Set, hK, hset, hum]
  · intro e _
    exact ⟨_, h, rfl⟩

/-- C8 on the loaded manager of `TestSet`: setting abc to "abcd" returns no
error although the model becomes invalid, and the model holds the new value
next to the key merged before. -/
theorem set_updates_model_witness :
    loadedManager.Set (toyKoanf TestModel.decode) "abc" "abcd" =
        .ret ({ loadedManager with
            K := some (Node.mergeInto (Node.ofPath ["abc"] (.scalar "abcd"))
              (Node.mergeInto (Node.ofEntries [(["key"], "v")]) Node.empty))
            model := { Key := "v", ABC := "abcd", Foo := "" } }, none) ∧
      TestModel.Validate { Key := "v", ABC := "abcd", Foo := "" } =
        some (.new "ABC must be length 3 if present") :=
  ⟨(set_updates_model (toyKoanf TestModel.decode) loadedManager "abc" "abcd"
      (Node.mergeInto (Node.ofEntries [(["key"], "v")]) Node.empty)
      (Node.mergeInto (Node.ofPath ["abc"] (.scalar "abcd"))
        (Node.mergeInto (Node.ofEntries [(["key"], "v")]) Node.empty))
      { Key := "v", ABC := "abcd", Foo := "" } rfl rfl rfl).1, rfl⟩

/-! ### C9: Load and its context -/

/-- The source loop stops at the first source that fails, with its index and
kind, the store as that source left it. -/
theorem Config.Load.loadSources_stop {N : Type} (ctx : Context) (pre rest : List (Source N))
    (src : Source N) (k k1 k2 : N) (e : Error)
    (hpre : Config.Load.loadSources ctx 0 pre k = (k1, none))
    (hfail : src.Load ctx k1 = (k2, some e)) :
    Config.Load.loadSources ctx 0 (pre ++ src :: rest) k =
      (k2, some (.wrapf "failed to load config from provider %d (type=%s): %w"
        [.int pre.length, .str src.Typ] e)) := by
  rw [Config.Load.loadSources_append ctx pre (src :: rest) 0 k k1 hpre, Nat.zero_add]
  simp only [Config.Load.loadSources, hfail]

/-- The source loop does not depend on the context when no source does. -/
theorem Config.Load.loadSources_context {N : Type} (c1 c2 : Context) (srcs : List (Source N)) :
    (∀ s ∈ srcs, ∀ (ctx ctx' : Context) (k : N), s.Load ctx k = s.Load ctx' k) →
    ∀ (n : Nat) (k : N),
      Config.Load.loadSources c1 n srcs k = Config.Load.loadSources c2 n srcs k := by
  induction srcs with
  | nil => intro _ n k; rfl
  | cons src rest ih =>
    intro h n k
    simp only [Config.Load.loadSources]
    rw [h src (List.mem_cons_self src rest) c1 c2 k]
    rcases src.Load c2 k with ⟨k', _ | err⟩
    · exact ih (fun s hs => h s (List.mem_cons_of_mem src hs)) (n + 1) k'
    · rfl

/-- A manager built by New from one embedded-defaults source with valid content,
loaded with a context whose deadline has passed: the context handed to the
source is expired, and Load returns no error and fills the model. -/
theorem load_expired_context_counterexample :
    New (toyKoanf TestModel.decode) { Key := "", ABC := "", Foo := "" }
        [WithSource [EmbeddedDefaults (toyKoanf TestModel.decode) validDocument FileTypeTOML]] =
      .ret (.ok (defaultsManager validDocument true)) ∧
    (Context.WithTimeout (Config.Load.baseContext [expiredContext])
        (defaultsManager validDocument true).loadTimeout).Err =
      some Context.DeadlineExceeded ∧
    (defaultsManager validDocument true).Load (toyKoanf TestModel.decode) [expiredContext] =
      .ret (loadedManager, none) :=
  ⟨rfl, rfl, rfl⟩

/-- C9, amended. Load does not inspect its context. It derives a context bounded
by loadTimeout from the one given, which is done with the same error when the
given one is already expired or cancelled, and hands it to the sources: when
the sources before index i load and source i returns the error of the context
it is handed, Load with an expired or cancelled context returns that error,
wrapped with the index and kind of source i, and goes no further. On a manager
whose sources ignore their context, Load with any one context returns what
Load without a context returns; every source built by EmbeddedDefaults ignores
its context. -/
theorem load_context_only_through_sources {N C V : Type} [ConfigModel C] (api : Koanf N C V)
    (mgr : Config N C) (ctx : Context) :
    (∀ e : Error, ctx.Err = some e →
      (Context.WithTimeout (Config.Load.baseContext [ctx]) mgr.loadTimeout).Err = some e) ∧
    (∀ (pre rest : List (Source N)) (src : Source N) (k k1 : N) (e : Error),
      mgr.K = some k → mgr.sources = pre ++ src :: rest →
      Config.Load.loadSources
        (Context.WithTimeout (Config.Load.baseContext [ctx]) mgr.loadTimeout) 0 pre k
          = (k1, none) →
      ctx.Err = some e →
      (∀ (c : Context) (x : N), (src.Load c x).2 = c.Err) →
      mgr.Load api [ctx] =
        .ret ({ mgr with
            K := some (src.Load
              (Context.WithTimeout (Config.Load.baseContext [ctx]) mgr.loadTimeout) k1).1 },
          some (.wrapf "failed to load config from provider %d (type=%s): %w"
            [.int pre.length, .str src.Typ] e))) ∧
    ((∀ s ∈ mgr.sources, ∀ (c1 c2 : Context) (k : N), s.Load c1 k = s.Load c2 k) →
      mgr.Load api [ctx] = mgr.Load api []) ∧
    (∀ (b : List UInt8) (filetype : ConfigFileType) (m : Config N C) (s : Source N),
      EmbeddedDefaults api b filetype m = .ret (.ok s) →
      ∀ (c1 c2 : Context) (k : N), s.Load c1 k = s.Load c2 k) := by
  have hderived : ∀ e : Error, ctx.Err = some e →
      (Context.WithTimeout (Config.Load.baseContext [ctx]) mgr.loadTimeout).Err = some e := by
    intro e he
    simp only [Config.Load.baseContext, Context.WithTimeout, he]
  refine ⟨hderived, ?_, ?_, ?_⟩
  · intro pre rest src k k1 e hK hsrcs hpre he hobs
    have hfail : src.Load
        (Context.WithTimeout (Config.Load.baseContext [ctx]) mgr.loadTimeout) k1 =
        ((src.Load
          (Context.WithTimeout (Config.Load.baseContext [ctx]) mgr.loadTimeout) k1).1,
          some e) := by
      rw [← hderived e he, ← hobs]
    rw [Config.Load_eq api mgr [ctx] k hK (by simp), hsrcs,
      Config.Load.loadSources_stop _ pre rest src k k1 _ e hpre hfail]
  · intro hign
    cases hK : mgr.K with
    | none => simp [Config.Load, hK]
    | some k =>
      rw [Config.Load_eq api mgr [ctx] k hK (by simp), Config.Load_eq api mgr [] k hK (by simp),
        Config.Load.loadSources_context _
          (Context.WithTimeout (Config.Load.baseContext []) mgr.loadTimeout) mgr.sources hign]
  · intro b filetype m s hs c1 c2 k
    simp only [EmbeddedDefaults] at hs
    split at hs
    · simp at hs
    · split at hs
      · simp at hs
      · injection hs with hs
        injection hs with hs
        subst hs
        rfl

/-- C9, amended, on two managers loaded with the expired context. The one whose
second source observes its context fails at provider 1 with the deadline error,
its first source merged. The one of the counterexample, whose embedded defaults
ignore the context, returns what Load without a context returns. -/
theorem load_context_only_through_sources_witness :
    observingManager.Load (toyKoanf Empty.decode) [expiredContext] =
      .ret ({ observingManager with
          K := some (Node.mergeInto (Node.ofEntries [(["a"], "1")]) Node.empty) },
        some (.wrapf "failed to load config from provider %d (type=%s): %w"
          [.int 1, .str "env"] Context.DeadlineExceeded)) ∧
    (defaultsManager validDocument true).Load (toyKoanf TestModel.decode) [expiredContext] =
      (defaultsManager validDocument true).Load (toyKoanf TestModel.decode) [] :=
  ⟨(load_context_only_through_sources (toyKoanf Empty.decode) observingManager
      expiredContext).2.1
      [mapSource SourceTypeDefault (Node.ofEntries [(["a"], "1")])] []
      (observingSource SourceTypeEnv) Node.empty
      (Node.mergeInto (Node.ofEntries [(["a"], "1")]) Node.empty) Context.DeadlineExceeded
      rfl rfl rfl rfl (fun _ _ => rfl),
    (load_context_only_through_sources (toyKoanf TestModel.decode)
      (defaultsManager validDocument true) expiredContext).2.2.1
      (fun s hs c1 c2 k => by
        have hs' : s = defaultsSource validDocument := by simpa [defaultsManager] using hs
        subst hs'
        rfl)⟩

/-! ### C10: nil flag inputs -/

/-- C10 at nil inputs. PFlags given a nil flag set returns the construction
error "flagset cannot be nil", and New fails with it. The urfavecli Flags
constructor given a nil command returns a source of kind pflag and no error,
and New succeeds with that source registered. -/
theorem flags_nil_input {N C V : Type} (api : Koanf N C V) (c : C) (mgr : Config N C) :
    PFlags api none mgr = .ret (.error (.errorf "flagset cannot be nil" [])) ∧
    New api c [WithSource [PFlags api none]] =
      .ret (.error (.wrapf "failed to apply option %d: %w" [.int 0]
        (.wrapf "failed to create source %d: %w" [.int 0]
          (.errorf "flagset cannot be nil" [])))) ∧
    (∃ src : Source N, urfavecli.Flags api none mgr = .ret (.ok src) ∧
      src.Typ = SourceTypePFlag) ∧
    (∃ m : Config N C, New api c [WithSource [urfavecli.Flags api none]] = .ret (.ok m) ∧
      m.sources.length = 1) :=
  ⟨rfl, rfl, ⟨_, rfl, rfl⟩, ⟨_, rfl, rfl⟩⟩

/-! ### C11: the file type of a path -/

/-- A string has a suffix exactly when it is some stem followed by it. -/
theorem stringsHasSuffix_iff (s suffix : String) :
    stringsHasSuffix s suffix = true ↔ ∃ stem : String, s = stem ++ suffix := by
  simp only [stringsHasSuffix, List.isSuffixOf_iff_suffix]
  constructor
  · rintro ⟨l, hl⟩
    refine ⟨String.mk l, ?_⟩
    apply String.ext
    rw [String.data_append, hl]
  · rintro ⟨stem, rfl⟩
    exact ⟨stem.data, (String.data_append stem suffix).symm⟩

/-- Of two suffixes of one string, the shorter is a suffix of the longer. -/
theorem stringsHasSuffix_of_both (s a b : String) (ha : stringsHasSuffix s a = true)
    (hb : stringsHasSuffix s b = true) (hlen : a.data.length ≤ b.data.length) :
    a.data.isSuffixOf b.data = true := by
  simp only [stringsHasSuffix, List.isSuffixOf_iff_suffix] at ha hb ⊢
  exact List.suffix_of_suffix_length_le ha hb hlen

/-- C11. For every path and every list of default file types (the variadic
argument), inferConfigFiletype returns TOML when the path ends in ".toml",
YAML when it ends in ".yaml" or ".yml", JSON when it ends in ".json", whatever
the default; when the path ends in none of the four it returns the first
default supplied, or TOML when none is supplied. -/
theorem inferConfigFiletype_by_extension (path : String) (defaultFiletype : List ConfigFileType) :
    ((∃ stem : String, path = stem ++ ".toml") →
      inferConfigFiletype path defaultFiletype = FileTypeTOML) ∧
    (((∃ stem : String, path = stem ++ ".yaml") ∨ (∃ stem : String, path = stem ++ ".yml")) →
      inferConfigFiletype path defaultFiletype = FileTypeYAML) ∧
    ((∃ stem : String, path = stem ++ ".json") →
      inferConfigFiletype path defaultFiletype = FileTypeJSON) ∧
    ((¬ ∃ stem : String, path = stem ++ ".toml") → (¬ ∃ stem : String, path = stem ++ ".yaml") →
      (¬ ∃ stem : String, path = stem ++ ".yml") → (¬ ∃ stem : String, path = stem ++ ".json") →
      inferConfigFiletype path defaultFiletype =
        match defaultFiletype with
        | first :: _ => first
        | [] => FileTypeTOML) := by
  simp only [← stringsHasSuffix_iff]
  refine ⟨?_, ?_, ?_, ?_⟩
  · intro h
    simp [inferConfigFiletype, h]
  · intro h
    have htoml : stringsHasSuffix path ".toml" = false := by
      cases ht : stringsHasSuffix path ".toml" with
      | false => rfl
      | true =>
        rcases h with h | h
        · exact absurd (stringsHasSuffix_of_both path ".yaml" ".toml" h ht (by decide))
            (by decide)
        · exact absurd (stringsHasSuffix_of_both path ".yml" ".toml" h ht (by decide))
            (by decide)
    rcases h with h | h <;> simp [inferConfigFiletype, htoml, h]
  · intro h
    have htoml : stringsHasSuffix path ".toml" = false := by
      cases ht : stringsHasSuffix path ".toml" with
      | false => rfl
      | true =>
        exact absurd (stringsHasSuffix_of_both path ".json" ".toml" h ht (by decide)) (by decide)
    have hyaml : stringsHasSuffix path ".yaml" = false := by
      cases ht : stringsHasSuffix path ".yaml" with
      | false => rfl
      | true =>
        exact absurd (stringsHasSuffix_of_both path ".json" ".yaml" h ht (by decide)) (by decide)
    have hyml : stringsHasSuffix path ".yml" = false := by
      cases ht : stringsHasSuffix path ".yml" with
      | false => rfl
      | true =>
        exact absurd (stringsHasSuffix_of_both path ".yml" ".json" ht h (by decide)) (by decide)
    simp [inferConfigFiletype, htoml, hyaml, hyml, h]
  · intro h1 h2 h3 h4
    simp only [Bool.not_eq_true] at h1 h2 h3 h4
    simp [inferConfigFiletype, h1, h2, h3, h4]

/-- C11 on the paths of `filetype_test.go`, with a default that the extension
overrides and one that it does not. -/
theorem inferConfigFiletype_by_extension_witness :
    inferConfigFiletype "config.yml" [FileTypeJSON] = FileTypeYAML ∧
      inferConfigFiletype "config" [FileTypeYAML] = FileTypeYAML ∧
      inferConfigFiletype "config" [] = FileTypeTOML :=
  ⟨(inferConfigFiletype_by_extension "config.yml" [FileTypeJSON]).2.1
      (Or.inr ⟨"config", by decide⟩),
    by decide, by decide⟩

/-! ### C12: the key of an environment variable -/

/-- Trimming a prefix off a string that starts with it leaves the rest. -/
theorem stringsTrimPrefix_append (pfx rest : String) :
    stringsTrimPrefix (pfx ++ rest) pfx = rest := by
  have hpre : stringsHasPrefix (pfx ++ rest) pfx = true := by
    simp only [stringsHasPrefix, List.isPrefixOf_iff_prefix, String.data_append]
    exact List.prefix_append pfx.data rest.data
  simp only [stringsTrimPrefix, hpre, if_true, String.data_append, List.drop_left]

/-- A name always has at least one piece. -/
theorem Env.specPieces.go_ne_nil (s : List Char) : ∀ skip : Nat, Env.specPieces.go skip s ≠ [] := by
  induction s with
  | nil => intro skip; cases skip <;> simp [Env.specPieces.go]
  | cons c rest ih =>
    intro skip
    cases skip with
    | succ skip => simpa [Env.specPieces.go] using ih skip
    | zero =>
      simp only [Env.specPieces.go]
      split
      · simp
      · split <;> simp

/-- Joining with a piece put in front. -/
theorem Env.specJoin_cons (sep seg : List Char) (segs : List (List Char)) (h : segs ≠ []) :
    Env.specJoin sep (seg :: segs) = seg ++ sep ++ Env.specJoin sep segs := by
  cases segs with
  | nil => exact absurd rfl h
  | cons s ss => rfl

/-- Joining with a character put in front of the first piece. -/
theorem Env.specJoin_cons_head (sep seg : List Char) (c : Char) (segs : List (List Char)) :
    Env.specJoin sep ((c :: seg) :: segs) = c :: Env.specJoin sep (seg :: segs) := by
  cases segs with
  | nil => rfl
  | cons s ss => rfl

/-- The scan of `strings.ReplaceAll` with "__" and "." cuts the name into its
pieces and joins them with ".". -/
theorem stringsReplaceAll.scan_eq_pieces (s : List Char) :
    ∀ skip : Nat,
      stringsReplaceAll.scan ['_', '_'] ['.'] skip s =
        Env.specJoin ['.'] (Env.specPieces.go skip s) := by
  induction s with
  | nil => intro skip; cases skip <;> rfl
  | cons c rest ih =>
    intro skip
    cases skip with
    | succ skip => simpa [stringsReplaceAll.scan, Env.specPieces.go] using ih skip
    | zero =>
      simp only [stringsReplaceAll.scan, Env.specPieces.go]
      by_cases hc : c = '_' ∧ rest.head? = some '_'
      · have hpre : List.isPrefixOf ['_', '_'] (c :: rest) = true := by
          obtain ⟨rfl, hhead⟩ := hc
          cases rest with
          | nil => simp at hhead
          | cons d rest' =>
            simp only [List.head?_cons, Option.some.injEq] at hhead
            subst hhead
            simp [List.isPrefixOf]
        rw [if_pos hpre, if_pos hc, Env.specJoin_cons _ _ _ (Env.specPieces.go_ne_nil rest 1),
          ih]
        rfl
      · have hpre : List.isPrefixOf ['_', '_'] (c :: rest) = false := by
          cases rest with
          | nil => simp [List.isPrefixOf]
          | cons d rest' =>
            simp only [List.head?_cons, Option.some.injEq] at hc
            simp only [List.isPrefixOf, Bool.and_true, Bool.and_eq_false_imp, beq_iff_eq,
              beq_eq_false_iff_ne, ne_eq]
            intro h1 h2
            exact hc ⟨h1.symm, h2.symm⟩
        rw [if_neg (by simp [hpre]), if_neg hc, ih 0]
        cases hgo : Env.specPieces.go 0 rest with
        | nil => exact absurd hgo (Env.specPieces.go_ne_nil rest 0)
        | cons seg segs => exact (Env.specJoin_cons_head ['.'] seg c segs).symm

/-- A piece without an underscore, followed by a double underscore, is the
first piece of the name. -/
theorem Env.specPieces.go_append (seg t : List Char) (hseg : '_' ∉ seg) :
    Env.specPieces.go 0 (seg ++ '_' :: '_' :: t) = seg :: Env.specPieces.go 0 t := by
  induction seg with
  | nil => simp [Env.specPieces.go]
  | cons c seg ih =>
    have hc : c ≠ '_' := fun h => hseg (by simp [h])
    have hrest : '_' ∉ seg := fun h => hseg (List.mem_cons_of_mem c h)
    have hgo := ih hrest
    simp only [List.cons_append, Env.specPieces.go, hc, false_and, if_false]
    simp only [List.append_eq, hgo]

/-- A name without an underscore is its own single piece. -/
theorem Env.specPieces.go_single (seg : List Char) (hseg : '_' ∉ seg) :
    Env.specPieces.go 0 seg = [seg] := by
  induction seg with
  | nil => rfl
  | cons c seg ih =>
    have hc : c ≠ '_' := fun h => hseg (by simp [h])
    have hrest : '_' ∉ seg := fun h => hseg (List.mem_cons_of_mem c h)
    simp only [Env.specPieces.go, hc, false_and, if_false, ih hrest]

/-- The pieces of underscore-free segments joined by "__" are the segments. -/
theorem Env.specPieces_join (segs : List (List Char)) (hne : segs ≠ [])
    (hsegs : ∀ seg ∈ segs, '_' ∉ seg) :
    Env.specPieces (Env.specJoin ['_', '_'] segs) = segs := by
  induction segs with
  | nil => exact absurd rfl hne
  | cons seg segs ih =>
    cases segs with
    | nil =>
      exact Env.specPieces.go_single seg (hsegs seg (List.mem_cons_self seg []))
    | cons s ss =>
      have hjoin : Env.specJoin ['_', '_'] (seg :: s :: ss) =
          seg ++ '_' :: '_' :: Env.specJoin ['_', '_'] (s :: ss) := by
        simp [Env.specJoin]
      rw [hjoin]
      simp only [Env.specPieces]
      rw [Env.specPieces.go_append seg _ (hsegs seg (List.mem_cons_self seg _))]
      congr 1
      exact ih (by simp) (fun x hx => hsegs x (List.mem_cons_of_mem seg hx))

/-- C12. For every table of lower-case letters, every prefix p and every
variable name n that starts with p, say n is p followed by rest: the key the
Env callback maps n to is the key as the specification words it, that is rest
(n with p stripped), lower-cased, cut at every double underscore and joined
with the delimiter ".". In particular when the lower-cased rest is segments
without underscores joined by "__", the key is these segments joined by ".".
Env builds a source of kind env that hands this callback, with p and the
delimiter, to the environment provider. -/
theorem env_key_mapping (unicodeToLower : Char → Char) (p n rest : String)
    (hn : n = p ++ rest) :
    Env.callback unicodeToLower p n = Env.specKey unicodeToLower p n ∧
      (∀ segs : List (List Char), segs ≠ [] → (∀ seg ∈ segs, '_' ∉ seg) →
        rest.data.map unicodeToLower = Env.specJoin ['_', '_'] segs →
        (Env.callback unicodeToLower p n).data = Env.specJoin ['.'] segs) ∧
      (∀ {N C V : Type} (api : Koanf N C V) (mgr : Config N C),
        ∃ src : Source N, Env api unicodeToLower p mgr = .ret (.ok src) ∧ src.Typ = "env" ∧
          ∀ (ctx : Context) (k : N),
            (src.Load ctx k).1 =
              (api.Load k (.env p "." (Env.callback unicodeToLower p)) none).1) := by
  subst hn
  have hcb : Env.callback unicodeToLower p (p ++ rest) =
      String.mk (Env.specJoin ['.'] (Env.specPieces (rest.data.map unicodeToLower))) := by
    have hold : ("__" : String).data = ['_', '_'] := rfl
    have hnew : (".": String).data = ['.'] := rfl
    simp only [Env.callback, stringsTrimPrefix_append, defaultDelimiter, stringsReplaceAll,
      stringsToLower, hold, hnew, Env.specPieces]
    rw [if_neg (by simp), stringsReplaceAll.scan_eq_pieces]
  refine ⟨?_, ?_, ?_⟩
  · rw [hcb]
    simp only [Env.specKey, String.data_append, List.drop_left]
  · intro segs hne hsegs hrest
    rw [hcb, hrest, Env.specPieces_join segs hne hsegs]
  · intro N C V api mgr
    refine ⟨_, rfl, rfl, ?_⟩
    intro ctx k
    simp only [defaultDelimiter]
    split <;> simp_all

/-- C12 on the example and on a longer name, for the lower-casing of A to Z:
with prefix "PREFIX_", "PREFIX_PARENT__CHILD" becomes "parent.child" and
"PREFIX_A__COUNTRY_CODE___B" becomes "a.country_code._b". -/
theorem env_key_mapping_witness :
    Env.callback Char.toLower "PREFIX_" "PREFIX_PARENT__CHILD" = "parent.child" ∧
      Env.callback Char.toLower "PREFIX_" "PREFIX_A__COUNTRY_CODE___B" = "a.country_code._b" :=
  ⟨(env_key_mapping Char.toLower "PREFIX_" "PREFIX_PARENT__CHILD" "PARENT__CHILD"
      (by decide)).1.trans (by decide),
    (env_key_mapping Char.toLower "PREFIX_" "PREFIX_A__COUNTRY_CODE___B"
      "A__COUNTRY_CODE___B" (by decide)).1.trans (by decide)⟩

/-! ### C13: Load twice -/

/-- What a Load that returns no error has done. -/
theorem Config.Load_ok_inv {N C V : Type} [ConfigModel C] (api : Koanf N C V)
    (mgr mgr1 : Config N C) (ctxs : List Context)
    (h : mgr.Load api ctxs = .ret (mgr1, none)) :
    ctxs.length ≤ 1 ∧ ∃ (k k' : N) (m' : C), mgr.K = some k ∧
      Config.Load.loadSources
        (Context.WithTimeout (Config.Load.baseContext ctxs) mgr.loadTimeout) 0 mgr.sources k
          = (k', none) ∧
      api.Unmarshal k' "" mgr.model = (m', none) ∧
      (mgr.validationEnabled = true → ConfigModel.Validate m' = none) ∧
      mgr1 = { mgr with K := some k', model := m' } := by
  have hlen : ctxs.length ≤ 1 := by
    by_contra hgt
    have hgt' : ctxs.length > 1 := by omega
    simp [Config.Load, hgt'] at h
  refine ⟨hlen, ?_⟩
  cases hK : mgr.K with
  | none =>
    have hnot : ¬ ctxs.length > 1 := by omega
    simp [Config.Load, hnot, hK] at h
  | some k =>
    rw [Config.Load_eq api mgr ctxs k hK hlen] at h
    rcases hls : Config.Load.loadSources
      (Context.WithTimeout (Config.Load.baseContext ctxs) mgr.loadTimeout) 0 mgr.sources k
      with ⟨k', _ | err⟩
    · simp only [hls] at h
      rcases hum : api.Unmarshal k' "" mgr.model with ⟨m', _ | err⟩
      · simp only [hum] at h
        refine ⟨k, k', m', rfl, hls, hum, ?_, ?_⟩
        · intro hv
          simp only [hv, if_true] at h
          cases hval : (ConfigModel.Validate m' : Option Error) with
          | none => rfl
          | some e => simp [hval] at h
        · cases hv : mgr.validationEnabled with
          | false =>
            simp only [hv] at h
            injection h with h
            injection h with h1 _
            rw [← h1]
          | true =>
            simp only [hv, if_true] at h
            cases hval : (ConfigModel.Validate m' : Option Error) with
            | none =>
              simp only [hval] at h
              injection h with h
              injection h with h1 _
              rw [← h1]
            | some e => simp [hval] at h
      · simp [hum] at h
    · simp [hls] at h

/-- A Load whose sources all load, whose store unmarshals and whose model
passes validation (when enabled) returns no error. -/
theorem Config.Load_ok_of {N C V : Type} [ConfigModel C] (api : Koanf N C V)
    (mgr : Config N C) (ctxs : List Context) (k k' : N) (m' : C)
    (hK : mgr.K = some k) (hlen : ctxs.length ≤ 1)
    (hls : Config.Load.loadSources
      (Context.WithTimeout (Config.Load.baseContext ctxs) mgr.loadTimeout) 0 mgr.sources k
        = (k', none))
    (hum : api.Unmarshal k' "" mgr.model = (m', none))
    (hval : mgr.validationEnabled = true → ConfigModel.Validate m' = none) :
    mgr.Load api ctxs = .ret ({ mgr with K := some k', model := m' }, none) := by
  rw [Config.Load_eq api mgr ctxs k hK hlen, hls]
  simp only [hum]
  by_cases hv : mgr.validationEnabled = true
  · simp only [hv, if_true, hval hv]
  · simp [hv]


/-- The value under a key after a step is the step below on the value under
the key. -/
theorem Node.Step.child_apply {V : Type} (key : String) (step : Node.Step V) (x : Node V) :
    (step.apply x).child key = (step.below key).apply (x.child key) := by
  cases step with
  | reset => rfl
  | merge c =>
    cases c with
    | absent => rfl
    | scalar v => rfl
    | map s =>
      cases x with
      | map xs => rfl
      | absent =>
        simp [Node.Step.apply, Node.Step.below, Node.mergeInto, Node.child,
          Node.mergeInto_absent]
      | scalar w =>
        simp [Node.Step.apply, Node.Step.below, Node.mergeInto, Node.child,
          Node.mergeInto_absent]

/-- The value under a key after a list of steps. -/
theorem Node.Step.child_run {V : Type} (key : String) (steps : List (Node.Step V)) :
    ∀ x : Node V,
      (Node.Step.run steps x).child key =
        Node.Step.run (steps.map (Node.Step.below key)) (x.child key) := by
  induction steps with
  | nil => intro x; rfl
  | cons step rest ih =>
    intro x
    simp only [Node.Step.run, List.foldl_cons, List.map_cons] at ih ⊢
    rw [ih (step.apply x), Node.Step.child_apply]

/-- A list of steps either keeps the shape of a value or gives it a shape that
does not depend on the value. -/
theorem Node.Step.kind_run {V : Type} (steps : List (Node.Step V)) :
    (∀ x : Node V, (Node.Step.run steps x).kind = x.kind) ∨
      (∃ κ : Node.Kind V, ∀ x : Node V, (Node.Step.run steps x).kind = κ) := by
  induction steps with
  | nil => exact Or.inl (fun _ => rfl)
  | cons step rest ih =>
    simp only [Node.Step.run, List.foldl_cons] at ih ⊢
    rcases ih with hkeep | ⟨κ, hconst⟩
    · cases step with
      | reset => exact Or.inr ⟨.absent, fun x => by rw [hkeep]; rfl⟩
      | merge c =>
        cases c with
        | absent => exact Or.inl (fun x => by rw [hkeep]; rfl)
        | scalar v => exact Or.inr ⟨.scalar v, fun x => by rw [hkeep]; rfl⟩
        | map s =>
          refine Or.inr ⟨.map, fun x => ?_⟩
          rw [hkeep]
          cases x <;> rfl
    · exact Or.inr ⟨κ, fun x => hconst _⟩

/-- Running a list of steps twice gives, at every key path, the shape that
running it once gives. -/
theorem Node.Step.kind_get_run_run {V : Type} (K : List String) :
    ∀ (steps : List (Node.Step V)) (x : Node V),
      ((Node.Step.run steps (Node.Step.run steps x)).get K).kind =
        ((Node.Step.run steps x).get K).kind := by
  induction K with
  | nil =>
    intro steps x
    simp only [Node.get]
    rcases Node.Step.kind_run steps with hkeep | ⟨κ, hconst⟩
    · rw [hkeep]
    · rw [hconst, hconst]
  | cons key rest ih =>
    intro steps x
    simp only [Node.get, Node.Step.child_run]
    exact ih _ _

/-- Two values with the same shape at every key path are equal. -/
theorem Node.ext_of_kind {V : Type} (a : Node V) :
    ∀ b : Node V, (∀ K : List String, (a.get K).kind = (b.get K).kind) → a = b := by
  induction a with
  | absent =>
    intro b h
    have h0 := h []
    cases b <;> simp_all [Node.get, Node.kind]
  | scalar v =>
    intro b h
    have h0 := h []
    cases b <;> simp_all [Node.get, Node.kind]
  | map f ih =>
    intro b h
    have h0 := h []
    cases b with
    | absent => simp [Node.get, Node.kind] at h0
    | scalar w => simp [Node.get, Node.kind] at h0
    | map g =>
      congr 1
      funext key
      exact ih key (g key) (fun K => h (key :: K))

/-- Merging the same maps in the same order a second time changes nothing. -/
theorem foldl_mergeInto_idempotent {V : Type} (ms : List (SourceType × Node V)) (k : Node V) :
    ms.foldl (fun acc p => Node.mergeInto p.2 acc)
        (ms.foldl (fun acc p => Node.mergeInto p.2 acc) k) =
      ms.foldl (fun acc p => Node.mergeInto p.2 acc) k := by
  have hrun : ∀ x : Node V, ms.foldl (fun acc p => Node.mergeInto p.2 acc) x =
      Node.Step.run (ms.map (fun p => Node.Step.merge p.2)) x := by
    intro x
    simp only [Node.Step.run, List.foldl_map]
    rfl
  rw [hrun, hrun]
  exact Node.ext_of_kind _ _
    (fun K => Node.Step.kind_get_run_run K (ms.map (fun p => Node.Step.merge p.2)) k)

/-- The decoding of one field, by field value and kept error. -/
theorem decodeField_eq {V W : Type} (k : Node V) (acc : Record W × Option Error)
    (f : FieldBinding V W) :
    decodeField k acc f =
      (fun p => decodeField.value k f p (acc.1 p), decodeField.error k f acc.2) := by
  simp only [decodeField, decodeField.value, decodeField.error]
  cases hk : k.get f.path with
  | absent =>
    simp only []
    split <;> rfl
  | scalar v =>
    simp only []
    cases hc : f.convert v <;> rfl
  | map s => rfl

/-- The decoding of the fields, by field value and kept error. -/
theorem decodeFields_eq {V W : Type} (k : Node V) (fields : List (FieldBinding V W)) :
    ∀ acc : Record W × Option Error,
      fields.foldl (decodeField k) acc =
        (fun p => fields.foldl (fun a f => decodeField.value k f p a) (acc.1 p),
          fields.foldl (fun e f => decodeField.error k f e) acc.2) := by
  induction fields with
  | nil => intro acc; rfl
  | cons f rest ih =>
    intro acc
    simp only [List.foldl_cons]
    rw [ih, decodeField_eq]

/-- The decoding either keeps the value of a field path or sets it to a value
that does not depend on the value before. -/
theorem decodeField.value_const {V W : Type} (k : Node V) (p : List String)
    (fields : List (FieldBinding V W)) :
    (∀ a : Option W, fields.foldl (fun a f => decodeField.value k f p a) a = a) ∨
      (∃ w : W, ∀ a : Option W,
        fields.foldl (fun a f => decodeField.value k f p a) a = some w) := by
  induction fields with
  | nil => exact Or.inl (fun _ => rfl)
  | cons f rest ih =>
    simp only [List.foldl_cons]
    rcases ih with hkeep | ⟨w, hset⟩
    · have hstep : (∀ a : Option W, decodeField.value k f p a = a) ∨
          (∃ w : W, ∀ a : Option W, decodeField.value k f p a = some w) := by
        simp only [decodeField.value]
        split
        · split
          · rename_i w _
            by_cases hp : p = f.path
            · exact Or.inr ⟨w, fun a => by simp [hp]⟩
            · exact Or.inl (fun a => by simp [hp])
          · exact Or.inl (fun _ => rfl)
        · exact Or.inl (fun _ => rfl)
      rcases hstep with hid | ⟨w, hw⟩
      · exact Or.inl (fun a => by rw [hkeep, hid])
      · exact Or.inr ⟨w, fun a => by rw [hkeep, hw]⟩
    · exact Or.inr ⟨w, fun a => hset _⟩

/-- Decoding a store into the model just decoded from it gives that model and
the same error again. -/
theorem decodeFields_idempotent {V W : Type} (fields : List (FieldBinding V W)) (k : Node V)
    (m m' : Record W) (e : Option Error) (h : decodeFields fields k m = (m', e)) :
    decodeFields fields k m' = (m', e) := by
  simp only [decodeFields, decodeFields_eq] at h ⊢
  injection h with hm he
  subst hm
  simp only [he, Prod.mk.injEq, and_true]
  funext p
  rcases decodeField.value_const k p fields with hkeep | ⟨w, hset⟩
  · rw [hkeep]
  · rw [hset, hset]

/-- C13. On a manager whose sources each merge a fixed nested map into the
store, with the store's field-by-field Unmarshal into a model of bound fields:
after a Load that returned no error (leaving manager mgr1), a second Load, with
any context, returns no error and leaves the manager, its store and its model,
equal to mgr1, although the store is not emptied in between. Whatever the
Unmarshal and the model, a second Load returns and leaves the store of the
first. -/
theorem load_idempotent {V W : Type} [ConfigModel (Record W)]
    (read : Node V → Provider → Option Parser → Node V × Option Error)
    (fields : List (FieldBinding V W)) (mgr mgr1 : Config (Node V) (Record W))
    (ctxs ctxs' : List Context) (ms : List (SourceType × Node V))
    (hsrc : mgr.sources = ms.map (fun p => mapSource p.1 p.2))
    (hload : mgr.Load (nodeKoanf read (decodeFields fields)) ctxs = .ret (mgr1, none))
    (hlen' : ctxs'.length ≤ 1) :
    mgr1.Load (nodeKoanf read (decodeFields fields)) ctxs' = .ret (mgr1, none) ∧
      (∀ {C : Type} [ConfigModel C] (api : Koanf (Node V) C V) (m m1 : Config (Node V) C)
          (cs : List Context),
        m.sources = ms.map (fun p => mapSource p.1 p.2) → m.Load api cs = .ret (m1, none) →
        ∃ (m2 : Config (Node V) C) (err : Option Error),
          m1.Load api ctxs' = .ret (m2, err) ∧ m2.K = m1.K) := by
  have hstore : ∀ {C : Type} [ConfigModel C] (api : Koanf (Node V) C V)
      (m m1 : Config (Node V) C) (cs : List Context),
      m.sources = ms.map (fun p => mapSource p.1 p.2) → m.Load api cs = .ret (m1, none) →
      ∃ k' : Node V, m1.K = some k' ∧
        api.Unmarshal k' "" m.model = (m1.model, none) ∧
        (m1.validationEnabled = true → ConfigModel.Validate m1.model = none) ∧
        Config.Load.loadSources
          (Context.WithTimeout (Config.Load.baseContext ctxs') m1.loadTimeout) 0 m1.sources k'
            = (k', none) := by
    intro C _ api m m1 cs hs hl
    obtain ⟨_, k, k', m', hK, hls, hum, hval, hm1⟩ := Config.Load_ok_inv api m m1 cs hl
    rw [hs, loadSources_mapSource] at hls
    have hk' : k' = ms.foldl (fun acc p => Node.mergeInto p.2 acc) k := by
      injection hls with h1 _
      exact h1.symm
    subst hm1
    refine ⟨k', rfl, hum, hval, ?_⟩
    show Config.Load.loadSources _ 0 m.sources k' = (k', none)
    rw [hs, loadSources_mapSource, hk', foldl_mergeInto_idempotent]
  refine ⟨?_, ?_⟩
  · obtain ⟨k', hK1, hum, hval, hagain⟩ :=
      hstore (nodeKoanf read (decodeFields fields)) mgr mgr1 ctxs hsrc hload
    have hum1 : (nodeKoanf read (decodeFields fields)).Unmarshal k' "" mgr1.model =
        (mgr1.model, none) :=
      decodeFields_idempotent fields k' mgr.model mgr1.model none hum
    have hfinal : ({ mgr1 with K := some k', model := mgr1.model } :
        Config (Node V) (Record W)) = mgr1 := by
      rw [← hK1]
    rw [Config.Load_ok_of (nodeKoanf read (decodeFields fields)) mgr1 ctxs' k' k' mgr1.model
      hK1 hlen' hagain hum1 hval, hfinal]
  · intro C _ api m m1 cs hs hl
    obtain ⟨k', hK1, _, _, hagain⟩ := hstore api m m1 cs hs hl
    rw [Config.Load_eq api m1 ctxs' k' hK1 hlen', hagain]
    simp only
    rcases api.Unmarshal k' "" m1.model with ⟨m2, _ | err⟩
    · simp only
      cases m1.validationEnabled
      · exact ⟨_, _, rfl, hK1.symm⟩
      · simp only [if_true]
        cases (ConfigModel.Validate m2 : Option Error)
        · exact ⟨_, _, rfl, hK1.symm⟩
        · exact ⟨_, _, rfl, hK1.symm⟩
    · exact ⟨_, _, rfl, hK1.symm⟩

/-- C13 on the sources {key: v, nested: {foo: x}} and {nested: {foo: y}} with
the fields `key`, `abc` and `nested.foo`: the first Load returns no error and
leaves the store {key: v, nested: {foo: y}} and the record key = v,
nested.foo = y, abc unset; the second Load returns no error and leaves that
same manager. -/
theorem load_idempotent_witness :
    @Config.Load _ _ _ recordModel (nodeKoanf toyRead (decodeFields testFields))
        recordManager [] = .ret (recordLoadedManager, none) ∧
      @Config.Load _ _ _ recordModel (nodeKoanf toyRead (decodeFields testFields))
        recordLoadedManager [Context.Background] = .ret (recordLoadedManager, none) ∧
      recordLoadedManager.model ["key"] = some "v" ∧
      recordLoadedManager.model ["nested", "foo"] = some "y" ∧
      recordLoadedManager.model ["abc"] = none ∧
      (recordStore.get ["nested", "foo"]).kind = .scalar "y" :=
  ⟨by rfl,
    (@load_idempotent String String recordModel toyRead testFields recordManager
      recordLoadedManager [] [Context.Background] recordMaps (by rfl) (by rfl) (by decide)).1,
    by rfl, by rfl, by rfl, by rfl⟩

/-! ### C14: the panic of `Parser` is out of reach -/

/-- The method `Valid` accepts exactly yaml, toml and json. -/
theorem ConfigFileType.Valid_eq_none_iff_filetype (c : ConfigFileType) :
    ConfigFileType.Valid c = none ↔ c ∈ ["yaml", "toml", "json"] := by
  simp only [ConfigFileType.Valid, FileTypeYAML, FileTypeTOML, FileTypeJSON, List.mem_cons,
    List.mem_singleton, List.not_mem_nil, or_false]
  split <;> simp_all

/-- The method `Parser` returns on a file type that `Valid` accepts. -/
theorem ConfigFileType.Parser_of_valid (c : ConfigFileType) (h : ConfigFileType.Valid c = none) :
    ∃ parser : Ckoanf.Parser, ConfigFileType.Parser c = .ret parser := by
  have hmem := (ConfigFileType.Valid_eq_none_iff_filetype c).mp h
  simp only [List.mem_cons, List.mem_singleton, List.not_mem_nil, or_false] at hmem
  rcases hmem with rfl | rfl | rfl
  · exact ⟨Ckoanf.Parser.yaml, rfl⟩
  · exact ⟨Ckoanf.Parser.toml, rfl⟩
  · exact ⟨Ckoanf.Parser.json, rfl⟩

/-- The method `Parser` panics on a file type that `Valid` rejects. -/
theorem ConfigFileType.Parser_of_invalid (c : ConfigFileType)
    (h : ConfigFileType.Valid c ≠ none) :
    ConfigFileType.Parser c = .panic (.errorf "invalid config file type: %s" [.str c]) := by
  have hmem : c ∉ ["yaml", "toml", "json"] := fun hm =>
    h ((ConfigFileType.Valid_eq_none_iff_filetype c).mpr hm)
  simp only [List.mem_cons, List.mem_singleton, List.not_mem_nil, or_false, not_or] at hmem
  simp [ConfigFileType.Parser, FileTypeYAML, FileTypeTOML, FileTypeJSON, hmem.1, hmem.2.1,
    hmem.2.2]

/-- The file type inferred without a default is one of toml, yaml, json. -/
theorem inferConfigFiletype_valid (path : String) :
    ConfigFileType.Valid (inferConfigFiletype path []) = none := by
  simp only [inferConfigFiletype]
  split
  · rfl
  · split
    · rfl
    · split <;> rfl

/-- C14. Parser panics exactly on the file types that Valid rejects, which are
the types other than yaml, toml and json. No constructor reaches the panic:
EmbeddedDefaults, for every content and file type, returns the construction
error of Valid when the type is invalid and never panics; the file type
LocalFile infers from any path is valid, so LocalFile returns a source; Env,
PFlags and the urfavecli Flags call no parser. -/
theorem parser_panic_unreachable :
    (∀ c : ConfigFileType,
      (∃ v : Error, ConfigFileType.Parser c = .panic v) ↔ ConfigFileType.Valid c ≠ none) ∧
    (∀ c : ConfigFileType, ConfigFileType.Valid c ≠ none ↔ c ∉ ["yaml", "toml", "json"]) ∧
    (∀ {N C V : Type} (api : Koanf N C V) (b : List UInt8) (filetype : ConfigFileType)
        (mgr : Config N C),
      (ConfigFileType.Valid filetype ≠ none →
        EmbeddedDefaults api b filetype mgr =
          .ret (.error (.errorf "invalid config file type: %s" [.str filetype]))) ∧
      ∀ v : Error, EmbeddedDefaults api b filetype mgr ≠ .panic v) ∧
    (∀ path : String, ConfigFileType.Valid (inferConfigFiletype path []) = none) ∧
    (∀ {N C V : Type} (api : Koanf N C V) (path : String) (mgr : Config N C),
      ∃ src : Source N, LocalFile api path mgr = .ret (.ok src)) ∧
    (∀ {N C V : Type} (api : Koanf N C V) (mgr : Config N C) (v : Error)
        (unicodeToLower : Char → Char) (p : String) (flagset : Option FlagSet)
        (c : Option Command),
      Env api unicodeToLower p mgr ≠ .panic v ∧ PFlags api flagset mgr ≠ .panic v ∧
        urfavecli.Flags api c mgr ≠ .panic v) := by
  refine ⟨?_, ?_, ?_, inferConfigFiletype_valid, ?_, ?_⟩
  · intro c
    constructor
    · rintro ⟨v, hv⟩ hvalid
      obtain ⟨parser, hp⟩ := ConfigFileType.Parser_of_valid c hvalid
      rw [hp] at hv
      cases hv
    · intro h
      exact ⟨_, ConfigFileType.Parser_of_invalid c h⟩
  · intro c
    rw [Ne, ConfigFileType.Valid_eq_none_iff_filetype]
  · intro N C V api b filetype mgr
    refine ⟨?_, ?_⟩
    · intro h
      simp only [EmbeddedDefaults]
      split
      · rename_i err herr
        simp only [ConfigFileType.Valid] at herr
        split at herr
        · cases herr
        · injection herr with herr
          rw [← herr]
      · rename_i hnone
        exact absurd hnone h
    · intro v hpanic
      simp only [EmbeddedDefaults] at hpanic
      split at hpanic
      · cases hpanic
      · rename_i hvalid
        obtain ⟨parser, hp⟩ := ConfigFileType.Parser_of_valid filetype hvalid
        rw [hp] at hpanic
        cases hpanic
  · intro N C V api path mgr
    obtain ⟨parser, hp⟩ :=
      ConfigFileType.Parser_of_valid (inferConfigFiletype path []) (inferConfigFiletype_valid path)
    simp only [LocalFile, hp]
    exact ⟨_, rfl⟩
  · intro N C V api mgr v unicodeToLower p flagset c
    refine ⟨?_, ?_, ?_⟩
    · intro h
      cases h
    · intro h
      cases flagset <;> cases h
    · intro h
      cases h

end Ckoanf
